import Mathlib

/-!
# Verification of the ADF ↔ markdown transcoder of mreider/jira-cli

This file is a shallow embedding, in Lean 4, of the document-tree ↔ markdown
transcoder found in `internal/markdown/marshal.go` and
`internal/markdown/unmarshal.go` of the repository, together with proofs and
refutations of the specified properties of that subsystem.

Modeling conventions:

* A Go `string` is modeled as `Str := List Char`.  Go strings are byte
  sequences; all the string constants manipulated by the transcoder are ASCII,
  so indexing/slicing by chars coincides with Go's byte slicing on every input
  considered here.  Where bytes genuinely matter (the JSON / base64 layer of
  the preservation-marker codec) we work over `List Nat` byte lists and UTF-8
  encode explicitly.
* Go's `jira.ADFNode` struct is the inductive `ADFNode` below; the
  `map[string]any` attribute maps are modeled as ordered association lists
  whose values `JVal` cover the JSON scalars actually used by the transcoder
  (numbers — integral, as produced and consumed by the code —, strings,
  booleans).
* `encoding/json.Marshal` on `ADFNode` is modeled by `serializeNode`
  (field order and `omitempty` behavior follow the struct tags), and
  `encoding/json.Unmarshal` by the recursive-descent byte parser `parseNodeB`,
  which accepts the canonical output of `serializeNode`.
* Loops whose progress is not structurally evident (the block-dispatch loop of
  `markdownToADF`, nested-list recursion, the inline scanner, the JSON
  parser) take an explicit fuel argument; fuel exhaustion returns `none`.
  A Go execution that terminates corresponds to a sufficiently fueled run,
  and a Go infinite loop corresponds to `none` for every fuel.
-/

/-! ## Go string primitives over `List Char` -/

/-- Model of Go `string`: a list of characters. -/
abbrev Str := List Char

/-- Shorthand to write `Str` literals. -/
def str (s : String) : Str := s.data

/-- Go `unicode.IsSpace` restricted to the ASCII range (the only whitespace
the transcoder's inputs contain): space, tab, newline, vertical tab, form
feed, carriage return. -/
def isGoSpace (c : Char) : Bool :=
  c = ' ' || c = '\t' || c = '\n' || c = '\x0b' || c = '\x0c' || c = '\r'

/-- Go `strings.HasPrefix`. -/
def hasPfx (p s : Str) : Bool := p.isPrefixOf s

/-- Go `strings.HasSuffix`. -/
def hasSfx (p s : Str) : Bool := p.isSuffixOf s

/-- Go `strings.TrimLeft` with a cutset. -/
def trimLeftChars (cut : Str) (s : Str) : Str := s.dropWhile (fun c => c ∈ cut)

/-- Go `strings.TrimRight` with a cutset. -/
def trimRightChars (cut : Str) (s : Str) : Str :=
  (s.reverse.dropWhile (fun c => c ∈ cut)).reverse

/-- Go `strings.Trim` with a cutset. -/
def trimChars (cut : Str) (s : Str) : Str :=
  trimRightChars cut (trimLeftChars cut s)

/-- Go `strings.TrimSpace`. -/
def trimSpace (s : Str) : Str :=
  ((s.dropWhile (fun c => isGoSpace c)).reverse.dropWhile (fun c => isGoSpace c)).reverse

/-- Go `strings.TrimPrefix` (removes the prefix once if present). -/
def trimPfxIf (p s : Str) : Str := if p.isPrefixOf s then s.drop p.length else s

/-- Go `strings.TrimSuffix` (removes the suffix once if present). -/
def trimSfxIf (p s : Str) : Str :=
  if p.isSuffixOf s then s.take (s.length - p.length) else s

/-- Go `strings.Split(s, sep)` for a single-character separator `sep`
(the transcoder only splits on `"\n"` and `"|"`).  `split "" = [""]`,
as in Go. -/
def splitChar (sep : Char) : Str → List Str
  | [] => [[]]
  | c :: cs =>
    if c = sep then [] :: splitChar sep cs
    else
      match splitChar sep cs with
      | [] => [[c]]
      | h :: t => (c :: h) :: t

/-- Split into lines, Go `strings.Split(s, "\n")`. -/
def splitNl (s : Str) : List Str := splitChar '\n' s

/-- Go `strings.Repeat(string(c), n)`. -/
def repChar (c : Char) (n : Nat) : Str := List.replicate n c

/-- Go `strings.Index(haystack, needle)`: position of the first occurrence of
`needle` as a substring, `none` when absent. -/
def findSub (needle : Str) : Str → Option Nat
  | [] => if needle = [] then some 0 else none
  | c :: cs =>
    if needle.isPrefixOf (c :: cs) then some 0
    else (findSub needle cs).map (· + 1)

/-- Decimal digit values of `n`, most significant first (fuel-structural so
that it reduces definitionally; `fuel > n` suffices). -/
def natDigsF : Nat → Nat → List Nat
  | 0, _ => []
  | fuel + 1, n => if n < 10 then [n] else natDigsF fuel (n / 10) ++ [n % 10]

/-- Decimal digit values of `n`, most significant first. -/
def natDigs (n : Nat) : List Nat := natDigsF (n + 1) n

/-- Decimal representation of a natural number as characters
(Go `fmt.Sprintf("%d", n)` / `strconv.Itoa`). -/
def natChars (n : Nat) : Str := (natDigs n).map (fun d => Char.ofNat (48 + d))

/-! ## The ADF data model (`internal/jira/types.go`)

```go
type ADFNode struct {
    Type    string         `json:"type"`
    Content []ADFNode      `json:"content,omitempty"`
    Text    string         `json:"text,omitempty"`
    Attrs   map[string]any `json:"attrs,omitempty"`
    Marks   []ADFMark      `json:"marks,omitempty"`
}
type ADFMark struct {
    Type  string         `json:"type"`
    Attrs map[string]any `json:"attrs,omitempty"`
}
```
-/

/-- A JSON scalar value stored in an `attrs` map.  JSON numbers are modeled
as integers: every number the transcoder reads or writes (`level`,
`version`) is integral. -/
inductive JVal where
  | num (n : Int)
  | vstr (s : Str)
  | vbool (b : Bool)
deriving DecidableEq

/-- Go `jira.ADFMark`. -/
structure ADFMark where
  type : Str
  attrs : List (Str × JVal)
deriving DecidableEq

/-- Go `jira.ADFNode`.  `attrs` maps are modeled as ordered association
lists. -/
inductive ADFNode where
  | mk (type : Str) (content : List ADFNode) (text : Str)
       (attrs : List (Str × JVal)) (marks : List ADFMark)

/-- The `Type` field. -/
def ADFNode.ty : ADFNode → Str
  | .mk t _ _ _ _ => t

/-- The `Content` field. -/
def ADFNode.kids : ADFNode → List ADFNode
  | .mk _ c _ _ _ => c

/-- The `Text` field. -/
def ADFNode.txt : ADFNode → Str
  | .mk _ _ x _ _ => x

/-- The `Attrs` field. -/
def ADFNode.attrsOf : ADFNode → List (Str × JVal)
  | .mk _ _ _ a _ => a

/-- The `Marks` field. -/
def ADFNode.marksOf : ADFNode → List ADFMark
  | .mk _ _ _ _ m => m

/-- Attribute lookup, Go `node.Attrs[key]` (with the `ok` flag represented
by `Option`). -/
def lookupAttr (key : Str) : List (Str × JVal) → Option JVal
  | [] => none
  | (k, v) :: rest => if k = key then some v else lookupAttr key rest

/-- A plain text node, as built throughout `unmarshal.go`:
`jira.ADFNode{Type: "text", Text: t}`. -/
def textNode (t : Str) : ADFNode := .mk (str "text") [] t [] []

/-- A text node with a single mark. -/
def markedNode (t : Str) (m : ADFMark) : ADFNode := .mk (str "text") [] t [] [m]

/-! ## Bytes: UTF-8 and base64

Go strings are byte sequences; `json.Marshal` produces bytes and
`base64.StdEncoding` encodes bytes.  Bytes are modeled as `Nat` values below
256. -/

/-- UTF-8 encoding of one character (the byte representation Go uses for
`string`). -/
def utf8Bytes (c : Char) : List Nat :=
  let n := c.toNat
  if n < 128 then [n]
  else if n < 2048 then [192 + n / 64, 128 + n % 64]
  else if n < 65536 then [224 + n / 4096, 128 + n / 64 % 64, 128 + n % 64]
  else [240 + n / 262144, 128 + n / 4096 % 64, 128 + n / 64 % 64, 128 + n % 64]

/-- UTF-8 bytes of a whole string. -/
def strBytes : Str → List Nat
  | [] => []
  | c :: cs => utf8Bytes c ++ strBytes cs

/-- Bytes of an ASCII string literal (used for fixed JSON punctuation and
keys, all of which are ASCII). -/
def ascii (s : String) : List Nat := s.data.map Char.toNat

/-- Decode one UTF-8 character from the front of a byte list. -/
def utf8Dec1 : List Nat → Option (Char × List Nat)
  | [] => none
  | b1 :: rest =>
    if b1 < 128 then some (Char.ofNat b1, rest)
    else if b1 < 192 then none
    else if b1 < 224 then
      match rest with
      | b2 :: r =>
        if 128 ≤ b2 && b2 < 192 then
          some (Char.ofNat ((b1 - 192) * 64 + (b2 - 128)), r)
        else none
      | _ => none
    else if b1 < 240 then
      match rest with
      | b2 :: b3 :: r =>
        if 128 ≤ b2 && b2 < 192 && 128 ≤ b3 && b3 < 192 then
          some (Char.ofNat ((b1 - 224) * 4096 + (b2 - 128) * 64 + (b3 - 128)), r)
        else none
      | _ => none
    else if b1 < 248 then
      match rest with
      | b2 :: b3 :: b4 :: r =>
        if 128 ≤ b2 && b2 < 192 && 128 ≤ b3 && b3 < 192 && 128 ≤ b4 && b4 < 192 then
          some (Char.ofNat ((b1 - 240) * 262144 + (b2 - 128) * 4096 +
            (b3 - 128) * 64 + (b4 - 128)), r)
        else none
      | _ => none
    else none

theorem charToNat_lt (c : Char) : c.toNat < 1114112 := by
  show c.val.toNat < 1114112
  rcases c.valid with h | ⟨_, h⟩
  · exact Nat.lt_trans h (by norm_num)
  · exact h

/-- Decoding inverts encoding, character by character. -/
theorem utf8Dec1_bytes (c : Char) (rest : List Nat) :
    utf8Dec1 (utf8Bytes c ++ rest) = some (c, rest) := by
  have hc : c.toNat < 1114112 := charToNat_lt c
  unfold utf8Bytes
  by_cases h1 : c.toNat < 128
  · simp [h1, utf8Dec1, Char.ofNat_toNat]
  · by_cases h2 : c.toNat < 2048
    · have e : (192 + c.toNat / 64 - 192) * 64 + (128 + c.toNat % 64 - 128) = c.toNat := by
        omega
      simp only [h1, h2, if_true, if_false, List.cons_append, utf8Dec1]
      rw [if_neg (by omega), if_neg (by omega), if_pos (by omega)]
      rw [if_pos (by simp; omega)]
      rw [e, Char.ofNat_toNat]; simp
    · by_cases h3 : c.toNat < 65536
      · have e : (224 + c.toNat / 4096 - 224) * 4096 + (128 + c.toNat / 64 % 64 - 128) * 64 +
            (128 + c.toNat % 64 - 128) = c.toNat := by
          omega
        simp only [h1, h2, h3, if_true, if_false, List.cons_append, utf8Dec1]
        rw [if_neg (by omega), if_neg (by omega), if_neg (by omega), if_pos (by omega)]
        rw [if_pos (by simp; omega)]
        rw [e, Char.ofNat_toNat]; simp
      · have e : (240 + c.toNat / 262144 - 240) * 262144 + (128 + c.toNat / 4096 % 64 - 128) * 4096 +
            (128 + c.toNat / 64 % 64 - 128) * 64 + (128 + c.toNat % 64 - 128) = c.toNat := by
          omega
        simp only [h1, h2, h3, if_true, if_false, List.cons_append, utf8Dec1]
        rw [if_neg (by omega), if_neg (by omega), if_neg (by omega), if_neg (by omega),
          if_pos (by omega)]
        rw [if_pos (by simp; omega)]
        rw [e, Char.ofNat_toNat]; simp

/-- Decode a whole byte list as UTF-8 text. -/
def utf8DecAll : Nat → List Nat → Option Str
  | _, [] => some []
  | 0, _ :: _ => none
  | fuel + 1, bs@(_ :: _) =>
    match utf8Dec1 bs with
    | none => none
    | some (c, rest) => (utf8DecAll fuel rest).map (c :: ·)

/-- Every byte of a UTF-8 encoding is below 256. -/
theorem utf8Bytes_lt (c : Char) : ∀ b ∈ utf8Bytes c, b < 256 := by
  have hc : c.toNat < 1114112 := charToNat_lt c
  unfold utf8Bytes
  by_cases h1 : c.toNat < 128
  · simp [h1]; omega
  · by_cases h2 : c.toNat < 2048
    · simp [h1, h2]; omega
    · by_cases h3 : c.toNat < 65536
      · simp [h1, h2, h3]; constructor
        · omega
        · constructor <;> omega
      · simp [h1, h2, h3]
        refine ⟨by omega, by omega, by omega, by omega⟩

theorem strBytes_lt (s : Str) : ∀ b ∈ strBytes s, b < 256 := by
  induction s with
  | nil => simp [strBytes]
  | cons c cs ih =>
    intro b hb
    rw [strBytes] at hb
    rcases List.mem_append.mp hb with h | h
    · exact utf8Bytes_lt c b h
    · exact ih b h

/-! ### base64 (`encoding/base64`, `StdEncoding`) -/

/-- The standard base64 alphabet. -/
def b64Alphabet : Str := str "ABCDEFGHIJKLMNOPQRSTUVWXYZabcdefghijklmnopqrstuvwxyz0123456789+/"

/-- Character for a sextet value. -/
def b64Char (i : Nat) : Char := b64Alphabet.getD i 'A'

/-- Sextet value of an alphabet character. -/
def b64Val (c : Char) : Option Nat := b64Alphabet.findIdx? (· = c)

/-- `base64.StdEncoding.EncodeToString`: groups of three bytes become four
alphabet characters, with `=` padding for a final group of one or two
bytes. -/
def b64Enc : List Nat → Str
  | [] => []
  | [b1] => [b64Char (b1 / 4), b64Char (b1 % 4 * 16), '=', '=']
  | [b1, b2] => [b64Char (b1 / 4), b64Char (b1 % 4 * 16 + b2 / 16), b64Char (b2 % 16 * 4), '=']
  | b1 :: b2 :: b3 :: rest =>
    b64Char (b1 / 4) :: b64Char (b1 % 4 * 16 + b2 / 16) ::
      b64Char (b2 % 16 * 4 + b3 / 64) :: b64Char (b3 % 64) :: b64Enc rest

/-- `base64.StdEncoding.DecodeString`: four characters at a time, `=` padding
allowed only in the final group; anything else fails. -/
def b64Dec : Str → Option (List Nat)
  | [] => some []
  | c1 :: c2 :: c3 :: c4 :: rest =>
    match b64Val c1, b64Val c2 with
    | some v1, some v2 =>
      if c3 = '=' then
        if c4 = '=' && rest.isEmpty then some [v1 * 4 + v2 / 16] else none
      else
        match b64Val c3 with
        | some v3 =>
          if c4 = '=' then
            if rest.isEmpty then some [v1 * 4 + v2 / 16, v2 % 16 * 16 + v3 / 4] else none
          else
            match b64Val c4 with
            | some v4 =>
              (b64Dec rest).map
                ([v1 * 4 + v2 / 16, v2 % 16 * 16 + v3 / 4, v3 % 4 * 64 + v4] ++ ·)
            | none => none
        | none => none
    | _, _ => none
  | _ => none

theorem b64Val_b64Char : ∀ i : Fin 64, b64Val (b64Char i.val) = some i.val := by decide

theorem b64Val_ne_eq (i : Nat) (h : i < 64) : b64Val (b64Char i) ≠ some 64 := by
  rw [b64Val_b64Char ⟨i, h⟩]; simp; omega

/-- An alphabet character is never the padding character. -/
theorem b64Char_ne_pad : ∀ i : Fin 64, b64Char i.val ≠ '=' := by decide

/-- base64 round-trip: decoding an encoding returns the original bytes. -/
theorem b64Dec_b64Enc : ∀ (l : List Nat), (∀ b ∈ l, b < 256) → b64Dec (b64Enc l) = some l := by
  intro l
  induction l using b64Enc.induct with
  | case1 =>
    intro _
    rfl
  | case2 b1 =>
    intro h
    have hb1 : b1 < 256 := h b1 (by simp)
    have v1 := b64Val_b64Char ⟨b1 / 4, by omega⟩
    have v2 := b64Val_b64Char ⟨b1 % 4 * 16, by omega⟩
    simp only [b64Enc, b64Dec, v1, v2]
    simp only [if_pos rfl, List.isEmpty_nil, Bool.and_true, if_true]
    simp
    omega
  | case3 b1 b2 =>
    intro h
    have hb1 : b1 < 256 := h b1 (by simp)
    have hb2 : b2 < 256 := h b2 (by simp)
    have v1 := b64Val_b64Char ⟨b1 / 4, by omega⟩
    have v2 := b64Val_b64Char ⟨b1 % 4 * 16 + b2 / 16, by omega⟩
    have v3 := b64Val_b64Char ⟨b2 % 16 * 4, by omega⟩
    have hne : b64Char (b2 % 16 * 4) ≠ '=' := b64Char_ne_pad ⟨b2 % 16 * 4, by omega⟩
    simp only [b64Enc, b64Dec, v1, v2, v3, if_neg hne]
    simp only [if_pos rfl, List.isEmpty_nil, if_true]
    have e1 : b1 / 4 * 4 + (b1 % 4 * 16 + b2 / 16) / 16 = b1 := by omega
    have e2 : (b1 % 4 * 16 + b2 / 16) % 16 * 16 + b2 % 16 * 4 / 4 = b2 := by omega
    rw [e1, e2]
  | case4 b1 b2 b3 rest ih =>
    intro h
    have hb1 : b1 < 256 := h b1 (by simp)
    have hb2 : b2 < 256 := h b2 (by simp)
    have hb3 : b3 < 256 := h b3 (by simp)
    have hrest : ∀ b ∈ rest, b < 256 := fun b hb => h b (by simp [hb])
    have v1 := b64Val_b64Char ⟨b1 / 4, by omega⟩
    have v2 := b64Val_b64Char ⟨b1 % 4 * 16 + b2 / 16, by omega⟩
    have v3 := b64Val_b64Char ⟨b2 % 16 * 4 + b3 / 64, by omega⟩
    have v4 := b64Val_b64Char ⟨b3 % 64, by omega⟩
    have hne3 : b64Char (b2 % 16 * 4 + b3 / 64) ≠ '=' := b64Char_ne_pad ⟨_, by omega⟩
    have hne4 : b64Char (b3 % 64) ≠ '=' := b64Char_ne_pad ⟨_, by omega⟩
    simp only [b64Enc, b64Dec, v1, v2, v3, v4, if_neg hne3, if_neg hne4]
    rw [ih hrest]
    have e1 : b1 / 4 * 4 + (b1 % 4 * 16 + b2 / 16) / 16 = b1 := by omega
    have e2 : (b1 % 4 * 16 + b2 / 16) % 16 * 16 + (b2 % 16 * 4 + b3 / 64) / 4 = b2 := by omega
    have e3 : (b2 % 16 * 4 + b3 / 64) % 4 * 64 + b3 % 64 = b3 := by omega
    simp [e1, e2, e3]

/-- No base64 output character is whitespace. -/
theorem b64Enc_no_ws : ∀ (l : List Nat), ∀ c ∈ b64Enc l, isGoSpace c = false := by
  have halpha : ∀ i : Nat, isGoSpace (b64Char i) = false := by
    intro i
    by_cases h : i < 64
    · exact (by decide : ∀ j : Fin 64, isGoSpace (b64Char j.val) = false) ⟨i, h⟩
    · have : b64Char i = 'A' := by
        unfold b64Char
        apply List.getD_eq_default
        simp [b64Alphabet, str]
        omega
      rw [this]; rfl
  intro l
  induction l using b64Enc.induct with
  | case1 => simp [b64Enc]
  | case2 b1 =>
    simp only [b64Enc]
    intro c hc
    simp only [List.mem_cons, List.not_mem_nil, or_false] at hc
    rcases hc with rfl | rfl | rfl | rfl
    · exact halpha _
    · exact halpha _
    · rfl
    · rfl
  | case3 b1 b2 =>
    simp only [b64Enc]
    intro c hc
    simp only [List.mem_cons, List.not_mem_nil, or_false] at hc
    rcases hc with rfl | rfl | rfl | rfl
    · exact halpha _
    · exact halpha _
    · exact halpha _
    · rfl
  | case4 b1 b2 b3 rest ih =>
    simp only [b64Enc]
    intro c hc
    simp only [List.mem_cons] at hc
    rcases hc with rfl | rfl | rfl | rfl | h
    · exact halpha _
    · exact halpha _
    · exact halpha _
    · exact halpha _
    · exact ih c h

/-- `trimSpace` is the identity when neither end of the string is
whitespace. -/
theorem trimSpace_eq_self (s : Str)
    (h1 : ∀ c, s.head? = some c → isGoSpace c = false)
    (h2 : ∀ c, s.getLast? = some c → isGoSpace c = false) : trimSpace s = s := by
  unfold trimSpace
  have step1 : s.dropWhile (fun c => isGoSpace c) = s := by
    cases s with
    | nil => rfl
    | cons c cs => simp [List.dropWhile_cons, h1 c rfl]
  rw [step1]
  have step2 : s.reverse.dropWhile (fun c => isGoSpace c) = s.reverse := by
    cases hr : s.reverse with
    | nil => rfl
    | cons c cs =>
      have : s.getLast? = some c := by
        rw [← List.head?_reverse, hr]; rfl
      simp [List.dropWhile_cons, h2 c this]
  rw [step2, List.reverse_reverse]

/-! ## JSON serialization of ADF nodes (`encoding/json.Marshal`)

Field order and `omitempty` behavior follow the struct tags of
`jira.ADFNode` / `jira.ADFMark`: `type`, then `content`, `text`, `attrs`,
`marks`, each of the last four omitted when empty.  String escaping is
modeled for the two JSON-mandatory escapes (`"` and `\`); all other
characters are emitted as their UTF-8 bytes. -/

/-- JSON string-body escaping. -/
def jEscape : Str → List Nat
  | [] => []
  | c :: cs =>
    (if c = '"' then [92, 34]
     else if c = '\\' then [92, 92]
     else utf8Bytes c) ++ jEscape cs

/-- A JSON string literal: quote, escaped body, quote. -/
def jStrBytes (s : Str) : List Nat := 34 :: (jEscape s ++ [34])

/-- A JSON integer literal. -/
def intBytes (i : Int) : List Nat :=
  if i < 0 then 45 :: (natDigs (-i).toNat).map (48 + ·)
  else (natDigs i.toNat).map (48 + ·)

/-- A JSON scalar value. -/
def jValBytes : JVal → List Nat
  | .num n => intBytes n
  | .vstr s => jStrBytes s
  | .vbool true => ascii "true"
  | .vbool false => ascii "false"

/-- The members of a JSON object: `"k":v` pairs joined by commas (no
surrounding braces). -/
def jPairsBytes : List (Str × JVal) → List Nat
  | [] => []
  | [(k, v)] => jStrBytes k ++ (58 :: jValBytes v)
  | (k, v) :: rest => jStrBytes k ++ (58 :: jValBytes v) ++ (44 :: jPairsBytes rest)

/-- The bytes of the leading `\x7b"type":` of every marshaled object. -/
def kTypeB : List Nat := 123 :: ascii "\"type\":"

/-- The bytes of the optional `,"content":[` segment opener. -/
def kContentB : List Nat := ascii ",\"content\":["

/-- The bytes of the optional `,"text":` segment opener. -/
def kTextB : List Nat := ascii ",\"text\":"

/-- The bytes of the optional `,"attrs":` segment opener. -/
def kAttrsB : List Nat := ascii ",\"attrs\":"

/-- The bytes of the optional `,"marks":[` segment opener. -/
def kMarksB : List Nat := ascii ",\"marks\":["

/-- JSON of one `ADFMark`. -/
def jMarkBytes : ADFMark → List Nat
  | ⟨t, []⟩ => kTypeB ++ jStrBytes t ++ [125]
  | ⟨t, a⟩ => kTypeB ++ jStrBytes t ++ (kAttrsB ++ (123 :: jPairsBytes a) ++ [125]) ++ [125]

/-- JSON of a mark list (members only, no brackets). -/
def jMarksBytes : List ADFMark → List Nat
  | [] => []
  | [m] => jMarkBytes m
  | m :: rest => jMarkBytes m ++ (44 :: jMarksBytes rest)

/-- The optional `,"text":…` segment of a marshaled node. -/
def textSeg (x : Str) : List Nat := if x.isEmpty then [] else kTextB ++ jStrBytes x

/-- The optional `,"attrs":…` segment of a marshaled node. -/
def attrsSeg (a : List (Str × JVal)) : List Nat :=
  if a.isEmpty then [] else kAttrsB ++ (123 :: jPairsBytes a) ++ [125]

/-- The optional `,"marks":…` segment of a marshaled node. -/
def marksSeg (m : List ADFMark) : List Nat :=
  if m.isEmpty then [] else kMarksB ++ jMarksBytes m ++ [93]

mutual
/-- `json.Marshal` of an `ADFNode`. -/
def serializeNode : ADFNode → List Nat
  | .mk t c x a m =>
    kTypeB ++ jStrBytes t ++
    (if c.isEmpty then [] else kContentB ++ serializeList c ++ [93]) ++
    textSeg x ++ attrsSeg a ++ marksSeg m ++ [125]
/-- `json.Marshal` of a node list (members only, no brackets). -/
def serializeList : List ADFNode → List Nat
  | [] => []
  | [n] => serializeNode n
  | n :: rest => serializeNode n ++ (44 :: serializeList rest)
end

/-! ## JSON parsing (`encoding/json.Unmarshal` on canonical output)

A recursive-descent byte parser accepting the canonical byte strings
produced by `serializeNode`.  List-shaped loops carry fuel; leaf parsers
compute their own sufficient fuel from the input length. -/

/-- Require a literal byte sequence at the front. -/
def expectBytes (p bs : List Nat) : Option (List Nat) :=
  if p.isPrefixOf bs then some (bs.drop p.length) else none

/-- ASCII digit test. -/
def isDigitB (b : Nat) : Bool := 48 ≤ b && b ≤ 57

/-- Parse a JSON string body (after the opening quote) up to and including
the closing quote. -/
def parseJStrBodyF : Nat → List Nat → Option (Str × List Nat)
  | 0, _ => none
  | fuel + 1, bs =>
    match bs with
    | [] => none
    | b :: rest =>
      if b = 34 then some ([], rest)
      else if b = 92 then
        match rest with
        | b2 :: rest2 =>
          if b2 = 34 then (parseJStrBodyF fuel rest2).map (fun p => ('"' :: p.1, p.2))
          else if b2 = 92 then (parseJStrBodyF fuel rest2).map (fun p => ('\\' :: p.1, p.2))
          else none
        | [] => none
      else
        match utf8Dec1 (b :: rest) with
        | some (c, r) => (parseJStrBodyF fuel r).map (fun p => (c :: p.1, p.2))
        | none => none

/-- Longest digit run at the front. -/
def takeDigits : List Nat → (List Nat × List Nat)
  | [] => ([], [])
  | b :: rest =>
    if isDigitB b then
      let p := takeDigits rest
      (b :: p.1, p.2)
    else ([], b :: rest)

/-- Numeric value of a digit-byte run. -/
def digsVal (ds : List Nat) : Nat := ds.foldl (fun a b => a * 10 + (b - 48)) 0

/-- Parse a JSON integer. -/
def parseIntB (bs : List Nat) : Option (Int × List Nat) :=
  match bs with
  | [] => none
  | b :: rest =>
    if b = 45 then
      let p := takeDigits rest
      if p.1.isEmpty then none else some (-(digsVal p.1 : Int), p.2)
    else
      let p := takeDigits (b :: rest)
      if p.1.isEmpty then none else some ((digsVal p.1 : Int), p.2)

/-- Parse a JSON scalar. -/
def parseJVal (bs : List Nat) : Option (JVal × List Nat) :=
  match bs with
  | [] => none
  | b :: rest =>
    if b = 34 then (parseJStrBodyF (rest.length + 1) rest).map (fun p => (JVal.vstr p.1, p.2))
    else if b = 116 then (expectBytes (ascii "rue") rest).map (fun r => (JVal.vbool true, r))
    else if b = 102 then (expectBytes (ascii "alse") rest).map (fun r => (JVal.vbool false, r))
    else (parseIntB bs).map (fun p => (JVal.num p.1, p.2))

/-- Parse the members of a JSON object up to and including the closing
brace. -/
def parseJPairsF : Nat → List Nat → Option (List (Str × JVal) × List Nat)
  | 0, _ => none
  | fuel + 1, bs =>
    match bs with
    | [] => none
    | b :: rest =>
      if b = 34 then
        match parseJStrBodyF (rest.length + 1) rest with
        | none => none
        | some (k, r1) =>
          match r1 with
          | [] => none
          | b2 :: r2 =>
            if b2 = 58 then
              match parseJVal r2 with
              | none => none
              | some (v, r3) =>
                match r3 with
                | [] => none
                | b3 :: r4 =>
                  if b3 = 44 then (parseJPairsF fuel r4).map (fun p => ((k, v) :: p.1, p.2))
                  else if b3 = 125 then some ([(k, v)], r4)
                  else none
            else none
      else none

/-- Parse one mark object. -/
def parseJMarkB (bs : List Nat) : Option (ADFMark × List Nat) :=
  match expectBytes (kTypeB ++ [34]) bs with
  | none => none
  | some r0 =>
    match parseJStrBodyF (r0.length + 1) r0 with
    | none => none
    | some (t, r1) =>
      if (kAttrsB ++ [123]).isPrefixOf r1 then
        match parseJPairsF (r1.length + 1) (r1.drop 10) with
        | none => none
        | some (a, r2) =>
          match r2 with
          | [] => none
          | b :: r3 => if b = 125 then some (⟨t, a⟩, r3) else none
      else
        match r1 with
        | [] => none
        | b :: r2 => if b = 125 then some (⟨t, ([] : List (Str × JVal))⟩, r2) else none

/-- Parse the elements of a mark array up to and including the closing
bracket. -/
def parseJMarksF : Nat → List Nat → Option (List ADFMark × List Nat)
  | 0, _ => none
  | fuel + 1, bs =>
    match parseJMarkB bs with
    | none => none
    | some (m, r1) =>
      match r1 with
      | [] => none
      | b :: r2 =>
        if b = 44 then (parseJMarksF fuel r2).map (fun p => (m :: p.1, p.2))
        else if b = 93 then some ([m], r2)
        else none

/-- Optional `,"text":"…"` field. -/
def parseOptText (bs : List Nat) : Option (Str × List Nat) :=
  if (kTextB ++ [34]).isPrefixOf bs then
    parseJStrBodyF (bs.length + 1) (bs.drop 9)
  else some ([], bs)

/-- Optional `,"attrs":\x7b…\x7d` field. -/
def parseOptAttrs (bs : List Nat) : Option (List (Str × JVal) × List Nat) :=
  if (kAttrsB ++ [123]).isPrefixOf bs then
    parseJPairsF (bs.length + 1) (bs.drop 10)
  else some ([], bs)

/-- Optional `,"marks":[…]` field. -/
def parseOptMarks (bs : List Nat) : Option (List ADFMark × List Nat) :=
  if kMarksB.isPrefixOf bs then
    parseJMarksF (bs.length + 1) (bs.drop 10)
  else some ([], bs)

/-- The trailing part of a node object after the `type` field and the
optional `content` array: optional `text`, optional `attrs`, optional
`marks`, then the closing brace. -/
def parseTailB (bs : List Nat) :
    Option ((Str × List (Str × JVal) × List ADFMark) × List Nat) :=
  match parseOptText bs with
  | none => none
  | some (x, r3) =>
    match parseOptAttrs r3 with
    | none => none
    | some (a, r4) =>
      match parseOptMarks r4 with
      | none => none
      | some (m, r5) =>
        match r5 with
        | [] => none
        | b :: r6 => if b = 125 then some ((x, a, m), r6) else none

mutual
/-- `json.Unmarshal` into an `ADFNode`, on the canonical byte form. -/
def parseNodeB : Nat → List Nat → Option (ADFNode × List Nat)
  | 0, _ => none
  | fuel + 1, bs =>
    match expectBytes (kTypeB ++ [34]) bs with
    | none => none
    | some r0 =>
      match parseJStrBodyF (r0.length + 1) r0 with
      | none => none
      | some (t, r1) =>
        match
          (if kContentB.isPrefixOf r1 then
            parseNodeListB fuel (r1.drop 12)
          else some ([], r1)) with
        | none => none
        | some (c, r2) =>
          match parseTailB r2 with
          | none => none
          | some ((x, a, m), r6) => some (.mk t c x a m, r6)
/-- Parse the elements of a node array up to and including the closing
bracket. -/
def parseNodeListB : Nat → List Nat → Option (List ADFNode × List Nat)
  | 0, _ => none
  | fuel + 1, bs =>
    match parseNodeB fuel bs with
    | none => none
    | some (n, r1) =>
      match r1 with
      | [] => none
      | b :: r2 =>
        if b = 44 then (parseNodeListB fuel r2).map (fun p => (n :: p.1, p.2))
        else if b = 93 then some ([n], r2)
        else none
end

/-- `json.Unmarshal` of a whole byte string into an `ADFNode` (must consume
all input). -/
def jsonParseNode (bs : List Nat) : Option ADFNode :=
  match parseNodeB (bs.length + 1) bs with
  | some (n, []) => some n
  | _ => none

/-! ## Round-trip of the JSON layer -/

theorem utf8Bytes_ne_nil (c : Char) : utf8Bytes c ≠ [] := by
  simp only [utf8Bytes]
  split_ifs <;> simp

theorem jEscape_len (s : Str) : s.length ≤ (jEscape s).length := by
  induction s with
  | nil => simp [jEscape]
  | cons c cs ih =>
    rw [jEscape, List.length_append, List.length_cons]
    have h1 : 1 ≤ (if c = '"' then [92, 34] else if c = '\\' then [92, 92] else utf8Bytes c).length := by
      split_ifs with g1 g2
      · simp
      · simp
      · cases hu : utf8Bytes c with
        | nil => exact absurd hu (utf8Bytes_ne_nil c)
        | cons _ _ => simp
    omega

theorem utf8Bytes_head (c : Char) (hq : c ≠ '"') (hb : c ≠ '\\') :
    ∃ h t, utf8Bytes c = h :: t ∧ h ≠ 34 ∧ h ≠ 92 := by
  have h34 : c.toNat ≠ 34 := fun he => hq (by rw [← Char.ofNat_toNat c, he])
  have h92 : c.toNat ≠ 92 := fun he => hb (by rw [← Char.ofNat_toNat c, he])
  simp only [utf8Bytes]
  by_cases h1 : c.toNat < 128
  · exact ⟨c.toNat, [], by simp [h1], h34, h92⟩
  · by_cases h2 : c.toNat < 2048
    · exact ⟨192 + c.toNat / 64, [128 + c.toNat % 64], by simp [h1, h2], by omega, by omega⟩
    · by_cases h3 : c.toNat < 65536
      · exact ⟨224 + c.toNat / 4096, [128 + c.toNat / 64 % 64, 128 + c.toNat % 64],
          by simp [h1, h2, h3], by omega, by omega⟩
      · exact ⟨240 + c.toNat / 262144,
          [128 + c.toNat / 4096 % 64, 128 + c.toNat / 64 % 64, 128 + c.toNat % 64],
          by simp [h1, h2, h3], by omega, by omega⟩

theorem parseJStrBodyF_round : ∀ (s : Str) (fuel : Nat) (rest : List Nat),
    s.length + 1 ≤ fuel →
    parseJStrBodyF fuel (jEscape s ++ (34 :: rest)) = some (s, rest) := by
  intro s
  induction s with
  | nil =>
    intro fuel rest hf
    cases fuel with
    | zero => omega
    | succ f => simp [jEscape, parseJStrBodyF]
  | cons c cs ih =>
    intro fuel rest hf
    cases fuel with
    | zero => simp at hf
    | succ f =>
      have hrec := ih f rest (by simp at hf; omega)
      by_cases hq : c = '"'
      · subst hq
        rw [jEscape, if_pos rfl]
        simp only [List.cons_append, List.nil_append, List.append_assoc]
        simp only [parseJStrBodyF]
        norm_num [hrec]
      · by_cases hbsl : c = '\\'
        · subst hbsl
          rw [jEscape, if_neg (by decide), if_pos rfl]
          simp only [List.cons_append, List.nil_append, List.append_assoc]
          simp only [parseJStrBodyF]
          norm_num [hrec]
        · obtain ⟨h, t, he, h34, h92⟩ := utf8Bytes_head c hq hbsl
          rw [jEscape, if_neg hq, if_neg hbsl, he]
          simp only [List.cons_append, List.append_assoc]
          simp only [parseJStrBodyF]
          rw [if_neg (by omega), if_neg (by omega)]
          have hu : utf8Dec1 (h :: (t ++ (jEscape cs ++ (34 :: rest)))) =
              some (c, jEscape cs ++ (34 :: rest)) := by
            rw [← List.cons_append, ← he]
            exact utf8Dec1_bytes c _
          rw [hu]
          simp [hrec]

theorem expectBytes_append (p r : List Nat) : expectBytes p (p ++ r) = some r := by
  unfold expectBytes
  rw [if_pos (by rw [List.isPrefixOf_iff_prefix]; exact List.prefix_append p r),
    List.drop_left]

theorem takeDigits_exact : ∀ (ds rest : List Nat), (∀ d ∈ ds, isDigitB d = true) →
    (∀ b, rest.head? = some b → isDigitB b = false) →
    takeDigits (ds ++ rest) = (ds, rest) := by
  intro ds
  induction ds with
  | nil =>
    intro rest _ hr
    cases rest with
    | nil => rfl
    | cons b r => simp [takeDigits, hr b rfl]
  | cons d ds ih =>
    intro rest hd hr
    have h0 : isDigitB d = true := hd d (by simp)
    simp only [List.cons_append, takeDigits, h0, if_true, List.append_eq]
    rw [ih rest (fun x hx => hd x (by simp [hx])) hr]

theorem natDigsF_lt10 : ∀ (fuel n : Nat), n < fuel → ∀ d ∈ natDigsF fuel n, d < 10 := by
  intro fuel
  induction fuel with
  | zero => intro n h; omega
  | succ f ih =>
    intro n hn d hd
    rw [natDigsF] at hd
    by_cases h10 : n < 10
    · simp [h10] at hd; omega
    · rw [if_neg h10] at hd
      rcases List.mem_append.mp hd with h | h
      · exact ih (n / 10) (by omega) d h
      · simp at h; omega

theorem natDigs_lt10 (n : Nat) : ∀ d ∈ natDigs n, d < 10 :=
  natDigsF_lt10 (n + 1) n (Nat.lt_succ_self n)

theorem natDigsF_ne_nil : ∀ (fuel n : Nat), n < fuel → natDigsF fuel n ≠ [] := by
  intro fuel n h
  cases fuel with
  | zero => omega
  | succ f =>
    rw [natDigsF]
    split_ifs <;> simp

theorem natDigs_cons (n : Nat) : ∃ d ds, natDigs n = d :: ds := by
  unfold natDigs
  rw [natDigsF]
  split_ifs with h
  · exact ⟨n, [], rfl⟩
  · have hne : natDigsF n (n / 10) ≠ [] := by
      apply natDigsF_ne_nil
      omega
    cases hc : natDigsF n (n / 10) with
    | nil => exact absurd hc hne
    | cons d ds => exact ⟨d, ds ++ [n % 10], by simp [hc]⟩

theorem digsVal_append_one (A : List Nat) (b : Nat) :
    digsVal (A ++ [b]) = digsVal A * 10 + (b - 48) := by
  unfold digsVal
  rw [List.foldl_append]
  rfl

theorem digsVal_natDigsF : ∀ (fuel n : Nat), n < fuel →
    digsVal ((natDigsF fuel n).map (48 + ·)) = n := by
  intro fuel
  induction fuel with
  | zero => intro n h; omega
  | succ f ih =>
    intro n hn
    rw [natDigsF]
    by_cases h10 : n < 10
    · simp [h10, digsVal]
    · rw [if_neg h10, List.map_append]
      simp only [List.map_cons, List.map_nil]
      rw [digsVal_append_one, ih (n / 10) (by omega)]
      omega

theorem digsVal_natDigs (n : Nat) : digsVal ((natDigs n).map (48 + ·)) = n :=
  digsVal_natDigsF (n + 1) n (Nat.lt_succ_self n)

theorem isDigitB_digit (d : Nat) (h : d < 10) : isDigitB (48 + d) = true := by
  simp [isDigitB]; omega

theorem natDigs_all_digits (n : Nat) :
    ∀ x ∈ (natDigs n).map (48 + ·), isDigitB x = true := by
  intro x hx
  simp only [List.mem_map] at hx
  obtain ⟨d, hd, rfl⟩ := hx
  exact isDigitB_digit d (natDigs_lt10 n d hd)

theorem parseIntB_round (i : Int) (rest : List Nat)
    (hr : ∀ b, rest.head? = some b → isDigitB b = false) :
    parseIntB (intBytes i ++ rest) = some (i, rest) := by
  unfold intBytes
  by_cases hneg : i < 0
  · rw [if_pos hneg]
    obtain ⟨d, ds, he⟩ := natDigs_cons (-i).toNat
    simp only [List.cons_append, parseIntB, if_pos rfl]
    rw [takeDigits_exact _ rest (natDigs_all_digits (-i).toNat) hr]
    have hval := digsVal_natDigs (-i).toNat
    rw [he] at hval ⊢
    simp only [List.map_cons] at hval ⊢
    simp [hval]
    omega
  · rw [if_neg hneg]
    obtain ⟨d, ds, he⟩ := natDigs_cons i.toNat
    have hd10 : d < 10 := natDigs_lt10 i.toNat d (by rw [he]; simp)
    have htd := takeDigits_exact ((natDigs i.toNat).map (48 + ·)) rest
      (natDigs_all_digits i.toNat) hr
    have hval := digsVal_natDigs i.toNat
    rw [he] at htd hval ⊢
    simp only [List.map_cons] at htd hval ⊢
    simp only [List.cons_append, parseIntB] at htd ⊢
    rw [if_neg (by omega)]
    rw [htd]
    simp [hval]
    omega

theorem head_nondigit (b : Nat) (hb : isDigitB b = false) (X : List Nat) :
    ∀ x, (b :: X).head? = some x → isDigitB x = false := by
  intro x hx
  simp only [List.head?_cons, Option.some.injEq] at hx
  rw [← hx]
  exact hb

theorem parseJVal_round (v : JVal) (rest : List Nat)
    (hr : ∀ b, rest.head? = some b → isDigitB b = false) :
    parseJVal (jValBytes v ++ rest) = some (v, rest) := by
  match v with
  | .vstr s =>
    have e : jValBytes (JVal.vstr s) ++ rest = 34 :: (jEscape s ++ (34 :: rest)) := by
      simp [jValBytes, jStrBytes]
    rw [e]
    have step : ∀ X : List Nat, parseJVal (34 :: X) =
        (parseJStrBodyF (X.length + 1) X).map (fun p => (JVal.vstr p.1, p.2)) := fun _ => rfl
    rw [step]
    rw [parseJStrBodyF_round s _ rest
      (by have := jEscape_len s; simp [List.length_append]; omega)]
    rfl
  | .num n =>
    by_cases hneg : n < 0
    · have e : jValBytes (JVal.num n) = 45 :: ((natDigs (-n).toNat).map (48 + ·)) := by
        simp [jValBytes, intBytes, hneg]
      rw [e]
      simp only [List.cons_append, parseJVal]
      rw [if_neg (by omega), if_neg (by omega), if_neg (by omega)]
      have e2 : (45 : Nat) :: ((natDigs (-n).toNat).map (48 + ·) ++ rest) =
          intBytes n ++ rest := by
        simp [intBytes, hneg]
      rw [e2, parseIntB_round n rest hr]
      rfl
    · obtain ⟨d, ds, he⟩ := natDigs_cons n.toNat
      have hd10 : d < 10 := natDigs_lt10 n.toNat d (by rw [he]; simp)
      have e : jValBytes (JVal.num n) = (48 + d) :: (ds.map (48 + ·)) := by
        simp [jValBytes, intBytes, hneg, he]
      rw [e]
      simp only [List.cons_append, parseJVal]
      rw [if_neg (by omega), if_neg (by omega), if_neg (by omega)]
      have e2 : (48 + d) :: (ds.map (48 + ·) ++ rest) = intBytes n ++ rest := by
        simp [intBytes, hneg, he]
      rw [e2, parseIntB_round n rest hr]
      rfl
  | .vbool true =>
    have e : jValBytes (JVal.vbool true) ++ rest = 116 :: (ascii "rue" ++ rest) := rfl
    rw [e]
    have step : ∀ X : List Nat, parseJVal (116 :: X) =
        (expectBytes (ascii "rue") X).map (fun r => (JVal.vbool true, r)) := fun _ => rfl
    rw [step, expectBytes_append]
    rfl
  | .vbool false =>
    have e : jValBytes (JVal.vbool false) ++ rest = 102 :: (ascii "alse" ++ rest) := rfl
    rw [e]
    have step : ∀ X : List Nat, parseJVal (102 :: X) =
        (expectBytes (ascii "alse") X).map (fun r => (JVal.vbool false, r)) := fun _ => rfl
    rw [step, expectBytes_append]
    rfl

theorem jPairsBytes_len : ∀ (a : List (Str × JVal)), a.length ≤ (jPairsBytes a).length := by
  intro a
  induction a using jPairsBytes.induct with
  | case1 => simp [jPairsBytes]
  | case2 k v => simp [jPairsBytes]; omega
  | case3 k v p ps ih =>
    rw [jPairsBytes]
    · simp only [List.length_append, List.length_cons]
      omega
    · exact ps

theorem parseJPairsF_round : ∀ (a : List (Str × JVal)) (fuel : Nat) (rest : List Nat),
    a ≠ [] → a.length ≤ fuel →
    parseJPairsF fuel (jPairsBytes a ++ (125 :: rest)) = some (a, rest) := by
  intro a
  induction a using jPairsBytes.induct with
  | case1 =>
    intro fuel rest h
    exact absurd rfl h
  | case2 k v =>
    intro fuel rest _ hf
    cases fuel with
    | zero => simp at hf
    | succ f =>
      rw [jPairsBytes, jStrBytes]
      simp only [List.cons_append, List.append_assoc, List.singleton_append, List.nil_append]
      have hk := parseJStrBodyF_round k
        ((jEscape k ++ 34 :: 58 :: (jValBytes v ++ 125 :: rest)).length + 1)
        (58 :: (jValBytes v ++ 125 :: rest))
        (by have := jEscape_len k; simp [List.length_append]; omega)
      have hv := parseJVal_round v (125 :: rest) (head_nondigit 125 (by decide) rest)
      simp only [List.length_append, List.length_cons] at hk
      simp [parseJPairsF, hk, hv]
  | case3 k v p ps ih =>
    intro fuel rest _ hf
    cases fuel with
    | zero => simp at hf
    | succ f =>
      rw [jPairsBytes, jStrBytes]
      · simp only [List.cons_append, List.append_assoc, List.singleton_append, List.nil_append]
        have hk := parseJStrBodyF_round k
          ((jEscape k ++ 34 :: 58 :: (jValBytes v ++ 44 :: (jPairsBytes p ++ 125 :: rest))).length + 1)
          (58 :: (jValBytes v ++ 44 :: (jPairsBytes p ++ 125 :: rest)))
          (by have := jEscape_len k; simp [List.length_append]; omega)
        have hv := parseJVal_round v (44 :: (jPairsBytes p ++ 125 :: rest))
          (head_nondigit 44 (by decide) _)
        have hih := ih f rest (by exact ps) (by simp at hf; omega)
        simp only [List.length_append, List.length_cons] at hk
        simp [parseJPairsF, hk, hv, hih]
      · exact ps

theorem kTypeB_eq : kTypeB = [123, 34, 116, 121, 112, 101, 34, 58] := rfl

theorem kContentB_eq : kContentB = [44, 34, 99, 111, 110, 116, 101, 110, 116, 34, 58, 91] := rfl

theorem kTextB_eq : kTextB = [44, 34, 116, 101, 120, 116, 34, 58] := rfl

theorem kAttrsB_eq : kAttrsB = [44, 34, 97, 116, 116, 114, 115, 34, 58] := rfl

theorem kMarksB_eq : kMarksB = [44, 34, 109, 97, 114, 107, 115, 34, 58, 91] := rfl

theorem isPfx_cons_neq (a b : Nat) (p l : List Nat) (h : ¬a = b) :
    ((a :: p).isPrefixOf (b :: l)) = false := by
  rw [Bool.eq_false_iff]
  intro hc
  rw [List.isPrefixOf_iff_prefix, List.cons_prefix_cons] at hc
  exact h hc.1

theorem noPfxTA (X : List Nat) : ((kTextB ++ [34]).isPrefixOf (kAttrsB ++ X)) = false := by
  rw [kTextB_eq, kAttrsB_eq]
  simp [List.isPrefixOf_iff_prefix, List.cons_prefix_cons, isPfx_cons_neq]

theorem noPfxTM (X : List Nat) : ((kTextB ++ [34]).isPrefixOf (kMarksB ++ X)) = false := by
  rw [kTextB_eq, kMarksB_eq]
  simp [List.isPrefixOf_iff_prefix, List.cons_prefix_cons, isPfx_cons_neq]

theorem noPfxTC (X : List Nat) : ((kTextB ++ [34]).isPrefixOf (125 :: X)) = false := by
  rw [kTextB_eq]
  simp [List.isPrefixOf_iff_prefix, List.cons_prefix_cons, isPfx_cons_neq]

theorem noPfxAM (X : List Nat) : ((kAttrsB ++ [123]).isPrefixOf (kMarksB ++ X)) = false := by
  rw [kAttrsB_eq, kMarksB_eq]
  simp [List.isPrefixOf_iff_prefix, List.cons_prefix_cons, isPfx_cons_neq]

theorem noPfxAC (X : List Nat) : ((kAttrsB ++ [123]).isPrefixOf (125 :: X)) = false := by
  rw [kAttrsB_eq]
  simp [List.isPrefixOf_iff_prefix, List.cons_prefix_cons, isPfx_cons_neq]

theorem noPfxMC (X : List Nat) : (kMarksB.isPrefixOf (125 :: X)) = false := by
  rw [kMarksB_eq]
  simp [List.isPrefixOf_iff_prefix, List.cons_prefix_cons, isPfx_cons_neq]

theorem noPfxCT (X : List Nat) : (kContentB.isPrefixOf (kTextB ++ X)) = false := by
  rw [kContentB_eq, kTextB_eq]
  simp [List.isPrefixOf_iff_prefix, List.cons_prefix_cons, isPfx_cons_neq]

theorem noPfxCA (X : List Nat) : (kContentB.isPrefixOf (kAttrsB ++ X)) = false := by
  rw [kContentB_eq, kAttrsB_eq]
  simp [List.isPrefixOf_iff_prefix, List.cons_prefix_cons, isPfx_cons_neq]

theorem noPfxCM (X : List Nat) : (kContentB.isPrefixOf (kMarksB ++ X)) = false := by
  rw [kContentB_eq, kMarksB_eq]
  simp [List.isPrefixOf_iff_prefix, List.cons_prefix_cons, isPfx_cons_neq]

theorem noPfxCC (X : List Nat) : (kContentB.isPrefixOf (125 :: X)) = false := by
  rw [kContentB_eq]
  simp [List.isPrefixOf_iff_prefix, List.cons_prefix_cons, isPfx_cons_neq]

theorem parseJMarkB_round (m : ADFMark) (rest : List Nat) :
    parseJMarkB (jMarkBytes m ++ rest) = some (m, rest) := by
  obtain ⟨t, a⟩ := m
  cases a with
  | nil =>
    rw [jMarkBytes]
    have e : kTypeB ++ jStrBytes t ++ [125] ++ rest =
        (kTypeB ++ [34]) ++ (jEscape t ++ (34 :: (125 :: rest))) := by
      simp [jStrBytes]
    rw [e]
    have h0 := expectBytes_append (kTypeB ++ [34]) (jEscape t ++ (34 :: (125 :: rest)))
    have h1 := parseJStrBodyF_round t ((jEscape t ++ (34 :: (125 :: rest))).length + 1)
      (125 :: rest) (by have := jEscape_len t; simp [List.length_append]; omega)
    simp only [List.length_append, List.length_cons, List.append_assoc,
      List.singleton_append, List.cons_append, List.nil_append] at h0 h1
    simp [parseJMarkB, h0, h1, noPfxAC]
  | cons a0 as =>
    rw [jMarkBytes]
    · have e : kTypeB ++ jStrBytes t ++ (kAttrsB ++ (123 :: jPairsBytes (a0 :: as)) ++ [125]) ++
          [125] ++ rest =
          (kTypeB ++ [34]) ++ (jEscape t ++ (34 :: (kAttrsB ++ (123 ::
            (jPairsBytes (a0 :: as) ++ (125 :: (125 :: rest))))))) := by
        simp [jStrBytes]
      rw [e]
      have h0 := expectBytes_append (kTypeB ++ [34])
        (jEscape t ++ (34 :: (kAttrsB ++ (123 :: (jPairsBytes (a0 :: as) ++ (125 :: (125 :: rest)))))))
      have h1 := parseJStrBodyF_round t
        ((jEscape t ++ (34 :: (kAttrsB ++ (123 ::
          (jPairsBytes (a0 :: as) ++ (125 :: (125 :: rest))))))).length + 1)
        (kAttrsB ++ (123 :: (jPairsBytes (a0 :: as) ++ (125 :: (125 :: rest)))))
        (by have := jEscape_len t; simp [List.length_append]; omega)
      have hpfx2 : kAttrsB ++ [123] <+:
          kAttrsB ++ (123 :: (jPairsBytes (a0 :: as) ++ (125 :: (125 :: rest)))) := by
        have h := List.prefix_append (kAttrsB ++ [123])
          (jPairsBytes (a0 :: as) ++ (125 :: (125 :: rest)))
        simp only [List.append_assoc, List.singleton_append] at h
        exact h
      have hdrop : ((kAttrsB ++ (123 :: (jPairsBytes (a0 :: as) ++
          (125 :: (125 :: rest))))).drop 10) =
          jPairsBytes (a0 :: as) ++ (125 :: (125 :: rest)) := by
        have e2 : kAttrsB ++ (123 :: (jPairsBytes (a0 :: as) ++ (125 :: (125 :: rest)))) =
            (kAttrsB ++ [123]) ++ (jPairsBytes (a0 :: as) ++ (125 :: (125 :: rest))) := by simp
        rw [e2, List.drop_left']
        rw [kAttrsB_eq]
        rfl
      have h2 := parseJPairsF_round (a0 :: as)
        ((kAttrsB ++ (123 :: (jPairsBytes (a0 :: as) ++ (125 :: (125 :: rest))))).length + 1)
        (125 :: rest)
        (by simp)
        (by have h := jPairsBytes_len (a0 :: as); simp [List.length_append] at h ⊢; omega)
      simp only [List.length_append, List.length_cons, List.append_assoc,
        List.singleton_append, List.cons_append, List.nil_append] at h0 h1 h2 hdrop
      simp [parseJMarkB, h0, h1, hpfx2, hdrop, h2]
    · simp

theorem jMarkBytes_len (m : ADFMark) : 1 ≤ (jMarkBytes m).length := by
  obtain ⟨t, a⟩ := m
  cases a with
  | nil =>
    rw [jMarkBytes]
    simp [kTypeB_eq]
  | cons a0 as =>
    rw [jMarkBytes]
    · simp [kTypeB_eq]
    · simp

theorem jMarksBytes_len : ∀ (ms : List ADFMark), ms.length ≤ (jMarksBytes ms).length := by
  intro ms
  induction ms using jMarksBytes.induct with
  | case1 => simp [jMarksBytes]
  | case2 m =>
    have := jMarkBytes_len m
    rw [jMarksBytes]
    simpa using this
  | case3 m p ps ih =>
    rw [jMarksBytes]
    · have := jMarkBytes_len m
      simp only [List.length_append, List.length_cons]
      simp at ih ⊢
      omega
    · exact ps

theorem parseJMarksF_round : ∀ (ms : List ADFMark) (fuel : Nat) (rest : List Nat),
    ms ≠ [] → ms.length ≤ fuel →
    parseJMarksF fuel (jMarksBytes ms ++ (93 :: rest)) = some (ms, rest) := by
  intro ms
  induction ms using jMarksBytes.induct with
  | case1 =>
    intro fuel rest h
    exact absurd rfl h
  | case2 m =>
    intro fuel rest _ hf
    cases fuel with
    | zero => simp at hf
    | succ f =>
      rw [jMarksBytes]
      have h1 := parseJMarkB_round m (93 :: rest)
      simp [parseJMarksF, h1]
  | case3 m p ps ih =>
    intro fuel rest _ hf
    cases fuel with
    | zero => simp at hf
    | succ f =>
      rw [jMarksBytes]
      · have h1 := parseJMarkB_round m (44 :: (jMarksBytes p ++ (93 :: rest)))
        have hih := ih f rest (by exact ps) (by simp at hf; omega)
        simp only [List.append_assoc, List.cons_append, List.nil_append] at h1 ⊢
        simp [parseJMarksF, h1, hih]
      · exact ps

theorem textPfxFalse (a : List (Str × JVal)) (m : List ADFMark) (rest : List Nat) :
    ((kTextB ++ [34]).isPrefixOf (attrsSeg a ++ (marksSeg m ++ (125 :: rest)))) = false := by
  cases a with
  | cons p ps =>
    simp only [attrsSeg, List.isEmpty_cons, if_false, Bool.false_eq_true, List.append_assoc]
    exact noPfxTA _
  | nil =>
    simp only [attrsSeg, List.isEmpty_nil, if_true, List.nil_append]
    cases m with
    | cons q qs =>
      simp only [marksSeg, List.isEmpty_cons, if_false, Bool.false_eq_true, List.append_assoc]
      exact noPfxTM _
    | nil =>
      simp only [marksSeg, List.isEmpty_nil, if_true, List.nil_append]
      exact noPfxTC _

theorem attrsPfxFalse (m : List ADFMark) (rest : List Nat) :
    ((kAttrsB ++ [123]).isPrefixOf (marksSeg m ++ (125 :: rest))) = false := by
  cases m with
  | cons q qs =>
    simp only [marksSeg, List.isEmpty_cons, if_false, Bool.false_eq_true, List.append_assoc]
    exact noPfxAM _
  | nil =>
    simp only [marksSeg, List.isEmpty_nil, if_true, List.nil_append]
    exact noPfxAC _

theorem contentPfxFalse (x : Str) (a : List (Str × JVal)) (m : List ADFMark) (rest : List Nat) :
    (kContentB.isPrefixOf
      (textSeg x ++ (attrsSeg a ++ (marksSeg m ++ (125 :: rest))))) = false := by
  cases x with
  | cons c cs =>
    simp only [textSeg, List.isEmpty_cons, if_false, Bool.false_eq_true, List.append_assoc]
    exact noPfxCT _
  | nil =>
    simp only [textSeg, List.isEmpty_nil, if_true, List.nil_append]
    cases a with
    | cons p ps =>
      simp only [attrsSeg, List.isEmpty_cons, if_false, Bool.false_eq_true, List.append_assoc]
      exact noPfxCA _
    | nil =>
      simp only [attrsSeg, List.isEmpty_nil, if_true, List.nil_append]
      cases m with
      | cons q qs =>
        simp only [marksSeg, List.isEmpty_cons, if_false, Bool.false_eq_true, List.append_assoc]
        exact noPfxCM _
      | nil =>
        simp only [marksSeg, List.isEmpty_nil, if_true, List.nil_append]
        exact noPfxCC _

theorem optTextSeg (x : Str) (a : List (Str × JVal)) (m : List ADFMark) (rest : List Nat) :
    parseOptText (textSeg x ++ (attrsSeg a ++ (marksSeg m ++ (125 :: rest)))) =
      some (x, attrsSeg a ++ (marksSeg m ++ (125 :: rest))) := by
  cases x with
  | nil =>
    simp only [textSeg, List.isEmpty_nil, if_true, List.nil_append]
    simp [parseOptText, textPfxFalse a m rest]
  | cons c cs =>
    have e : textSeg (c :: cs) ++ (attrsSeg a ++ (marksSeg m ++ (125 :: rest))) =
        (kTextB ++ [34]) ++ (jEscape (c :: cs) ++
          (34 :: (attrsSeg a ++ (marksSeg m ++ (125 :: rest))))) := by
      simp [textSeg, jStrBytes]
    rw [e]
    have hpfx2 : kTextB ++ [34] <+: (kTextB ++ [34]) ++ (jEscape (c :: cs) ++
        (34 :: (attrsSeg a ++ (marksSeg m ++ (125 :: rest))))) :=
      List.prefix_append _ _
    have hdrop : (((kTextB ++ [34]) ++ (jEscape (c :: cs) ++
        (34 :: (attrsSeg a ++ (marksSeg m ++ (125 :: rest)))))).drop 9) =
        jEscape (c :: cs) ++ (34 :: (attrsSeg a ++ (marksSeg m ++ (125 :: rest)))) := by
      rw [List.drop_left']
      rw [kTextB_eq]
      rfl
    have h1 := parseJStrBodyF_round (c :: cs)
      ((((kTextB ++ [34]) ++ (jEscape (c :: cs) ++
        (34 :: (attrsSeg a ++ (marksSeg m ++ (125 :: rest))))))).length + 1)
      (attrsSeg a ++ (marksSeg m ++ (125 :: rest)))
      (by have h := jEscape_len (c :: cs); simp [List.length_append] at h ⊢; omega)
    simp only [List.length_append, List.length_cons, List.append_assoc,
      List.singleton_append, List.cons_append, List.nil_append] at h1 hdrop hpfx2 ⊢
    simp [parseOptText, hpfx2, hdrop, h1]

theorem optAttrsSeg (a : List (Str × JVal)) (m : List ADFMark) (rest : List Nat) :
    parseOptAttrs (attrsSeg a ++ (marksSeg m ++ (125 :: rest))) =
      some (a, marksSeg m ++ (125 :: rest)) := by
  cases a with
  | nil =>
    simp only [attrsSeg, List.isEmpty_nil, if_true, List.nil_append]
    simp [parseOptAttrs, attrsPfxFalse m rest]
  | cons p ps =>
    have e : attrsSeg (p :: ps) ++ (marksSeg m ++ (125 :: rest)) =
        (kAttrsB ++ [123]) ++ (jPairsBytes (p :: ps) ++
          (125 :: (marksSeg m ++ (125 :: rest)))) := by
      simp [attrsSeg]
    rw [e]
    have hpfx2 : kAttrsB ++ [123] <+: (kAttrsB ++ [123]) ++ (jPairsBytes (p :: ps) ++
        (125 :: (marksSeg m ++ (125 :: rest)))) :=
      List.prefix_append _ _
    have hdrop : (((kAttrsB ++ [123]) ++ (jPairsBytes (p :: ps) ++
        (125 :: (marksSeg m ++ (125 :: rest))))).drop 10) =
        jPairsBytes (p :: ps) ++ (125 :: (marksSeg m ++ (125 :: rest))) := by
      rw [List.drop_left']
      rw [kAttrsB_eq]
      rfl
    have h2 := parseJPairsF_round (p :: ps)
      ((((kAttrsB ++ [123]) ++ (jPairsBytes (p :: ps) ++
        (125 :: (marksSeg m ++ (125 :: rest)))))).length + 1)
      (marksSeg m ++ (125 :: rest))
      (by simp)
      (by have h := jPairsBytes_len (p :: ps); simp [List.length_append] at h ⊢; omega)
    simp only [List.length_append, List.length_cons, List.append_assoc,
      List.singleton_append, List.cons_append, List.nil_append] at h2 hdrop hpfx2 ⊢
    simp [parseOptAttrs, hpfx2, hdrop, h2]

theorem optMarksSeg (m : List ADFMark) (rest : List Nat) :
    parseOptMarks (marksSeg m ++ (125 :: rest)) = some (m, 125 :: rest) := by
  cases m with
  | nil =>
    simp only [marksSeg, List.isEmpty_nil, if_true, List.nil_append]
    simp [parseOptMarks, noPfxMC rest]
  | cons q qs =>
    have e : marksSeg (q :: qs) ++ (125 :: rest) =
        kMarksB ++ (jMarksBytes (q :: qs) ++ (93 :: (125 :: rest))) := by
      simp [marksSeg]
    rw [e]
    have hpfx2 : kMarksB <+: kMarksB ++ (jMarksBytes (q :: qs) ++ (93 :: (125 :: rest))) :=
      List.prefix_append _ _
    have hdrop : ((kMarksB ++ (jMarksBytes (q :: qs) ++ (93 :: (125 :: rest)))).drop 10) =
        jMarksBytes (q :: qs) ++ (93 :: (125 :: rest)) := by
      rw [List.drop_left']
      rw [kMarksB_eq]
      rfl
    have h3 := parseJMarksF_round (q :: qs)
      ((kMarksB ++ (jMarksBytes (q :: qs) ++ (93 :: (125 :: rest)))).length + 1)
      (125 :: rest)
      (by simp)
      (by have h := jMarksBytes_len (q :: qs); simp [List.length_append] at h ⊢; omega)
    simp only [List.length_append, List.length_cons, List.append_assoc,
      List.singleton_append, List.cons_append, List.nil_append] at h3 hdrop hpfx2 ⊢
    simp [parseOptMarks, hpfx2, hdrop, h3]

theorem parseTailB_round (x : Str) (a : List (Str × JVal)) (m : List ADFMark) (rest : List Nat) :
    parseTailB (textSeg x ++ (attrsSeg a ++ (marksSeg m ++ (125 :: rest)))) =
      some ((x, a, m), rest) := by
  have h1 := optTextSeg x a m rest
  have h2 := optAttrsSeg a m rest
  have h3 := optMarksSeg m rest
  simp [parseTailB, h1, h2, h3]

mutual
/-- Number of nodes in a tree: a fuel bound for `parseNodeB`. -/
def nodeCount : ADFNode → Nat
  | .mk _ c _ _ _ => 1 + nodeListCount c
/-- Fuel bound for `parseNodeListB`. -/
def nodeListCount : List ADFNode → Nat
  | [] => 0
  | n :: ns => 1 + nodeCount n + nodeListCount ns
end

theorem parseNodeB_round : ∀ (n : ADFNode) (fuel : Nat) (rest : List Nat),
    nodeCount n ≤ fuel → parseNodeB fuel (serializeNode n ++ rest) = some (n, rest) := by
  intro n
  induction n using ADFNode.rec
    (motive_2 := fun l => ∀ (fuel : Nat) (rest : List Nat), l ≠ [] →
      nodeListCount l ≤ fuel →
      parseNodeListB fuel (serializeList l ++ (93 :: rest)) = some (l, rest)) with
  | mk t c x a m ihc =>
    intro fuel rest hf
    cases fuel with
    | zero => rw [nodeCount] at hf; omega
    | succ f =>
      rw [serializeNode]
      cases c with
      | nil =>
        have e : kTypeB ++ jStrBytes t ++
            (if ([] : List ADFNode).isEmpty then [] else kContentB ++ serializeList [] ++ [93]) ++
            textSeg x ++ attrsSeg a ++ marksSeg m ++ [125] ++ rest =
            (kTypeB ++ [34]) ++ (jEscape t ++
              (34 :: (textSeg x ++ (attrsSeg a ++ (marksSeg m ++ (125 :: rest)))))) := by
          simp [jStrBytes]
        rw [e]
        have h0 := expectBytes_append (kTypeB ++ [34])
          (jEscape t ++ (34 :: (textSeg x ++ (attrsSeg a ++ (marksSeg m ++ (125 :: rest))))))
        have h1 := parseJStrBodyF_round t
          ((jEscape t ++ (34 :: (textSeg x ++ (attrsSeg a ++
            (marksSeg m ++ (125 :: rest)))))).length + 1)
          (textSeg x ++ (attrsSeg a ++ (marksSeg m ++ (125 :: rest))))
          (by have h := jEscape_len t; simp [List.length_append] at h ⊢; omega)
        have hpf := contentPfxFalse x a m rest
        have h2 := parseTailB_round x a m rest
        simp only [List.length_append, List.length_cons, List.append_assoc,
          List.singleton_append, List.cons_append, List.nil_append] at h0 h1 h2 hpf ⊢
        simp [parseNodeB, h0, h1, hpf, h2]
      | cons n0 ns =>
        have e : kTypeB ++ jStrBytes t ++
            (if (n0 :: ns).isEmpty then [] else kContentB ++ serializeList (n0 :: ns) ++ [93]) ++
            textSeg x ++ attrsSeg a ++ marksSeg m ++ [125] ++ rest =
            (kTypeB ++ [34]) ++ (jEscape t ++ (34 :: (kContentB ++
              (serializeList (n0 :: ns) ++ (93 :: (textSeg x ++ (attrsSeg a ++
                (marksSeg m ++ (125 :: rest))))))))) := by
          simp [jStrBytes]
        rw [e]
        have h0 := expectBytes_append (kTypeB ++ [34])
          (jEscape t ++ (34 :: (kContentB ++ (serializeList (n0 :: ns) ++
            (93 :: (textSeg x ++ (attrsSeg a ++ (marksSeg m ++ (125 :: rest)))))))))
        have h1 := parseJStrBodyF_round t
          ((jEscape t ++ (34 :: (kContentB ++ (serializeList (n0 :: ns) ++
            (93 :: (textSeg x ++ (attrsSeg a ++ (marksSeg m ++ (125 :: rest))))))))).length + 1)
          (kContentB ++ (serializeList (n0 :: ns) ++
            (93 :: (textSeg x ++ (attrsSeg a ++ (marksSeg m ++ (125 :: rest)))))))
          (by have h := jEscape_len t; simp [List.length_append] at h ⊢; omega)
        have hpfx2 : kContentB <+: kContentB ++ (serializeList (n0 :: ns) ++
            (93 :: (textSeg x ++ (attrsSeg a ++ (marksSeg m ++ (125 :: rest)))))) :=
          List.prefix_append _ _
        have hdrop : ((kContentB ++ (serializeList (n0 :: ns) ++
            (93 :: (textSeg x ++ (attrsSeg a ++ (marksSeg m ++ (125 :: rest))))))).drop 12) =
            serializeList (n0 :: ns) ++
              (93 :: (textSeg x ++ (attrsSeg a ++ (marksSeg m ++ (125 :: rest))))) := by
          rw [List.drop_left']
          rw [kContentB_eq]
          rfl
        have hc := ihc f (textSeg x ++ (attrsSeg a ++ (marksSeg m ++ (125 :: rest))))
          (by simp) (by rw [nodeCount] at hf; omega)
        have h2 := parseTailB_round x a m rest
        simp only [List.length_append, List.length_cons, List.append_assoc,
          List.singleton_append, List.cons_append, List.nil_append] at h0 h1 h2 hdrop hc ⊢
        simp [parseNodeB, h0, h1, hpfx2, hdrop, hc, h2]
  | nil =>
    exact absurd rfl (by assumption)
  | cons hd tl ih1 ih2 =>
    rename_i fuel rest hne hf
    cases fuel with
    | zero => rw [nodeListCount] at hf; omega
    | succ f =>
      cases tl with
      | nil =>
        rw [serializeList]
        have h1 := ih1 f (93 :: rest) (by rw [nodeListCount, nodeListCount] at hf; omega)
        simp [parseNodeListB, h1]
      | cons t0 ts =>
        rw [serializeList]
        · have h1 := ih1 f (44 :: (serializeList (t0 :: ts) ++ (93 :: rest)))
            (by rw [nodeListCount] at hf; omega)
          have hih := ih2 f rest (by simp)
            (by rw [nodeListCount] at hf; omega)
          simp only [List.append_assoc, List.cons_append, List.nil_append] at h1 hih ⊢
          simp [parseNodeListB, h1, hih]
        · simp

theorem jStrBytes_len (s : Str) : 2 ≤ (jStrBytes s).length := by
  simp [jStrBytes]

theorem serializeNode_len : ∀ (n : ADFNode), nodeCount n ≤ (serializeNode n).length := by
  intro n
  induction n using ADFNode.rec
    (motive_2 := fun l => nodeListCount l ≤ (serializeList l).length + 1) with
  | mk t c x a m ihc =>
    rw [nodeCount, serializeNode]
    cases c with
    | nil =>
      simp only [nodeListCount]
      simp [kTypeB_eq, jStrBytes]
    | cons n0 ns =>
      have h2 := jStrBytes_len t
      simp only [List.isEmpty_cons, if_false, Bool.false_eq_true, List.length_append]
      rw [nodeListCount] at ihc ⊢
      simp only [List.length_append, List.length_cons] at ihc ⊢
      omega
  | nil =>
    simp [nodeListCount, serializeList]
  | cons hd tl ih1 ih2 =>
    cases tl with
    | nil =>
      rw [nodeListCount, nodeListCount, serializeList]
      omega
    | cons t0 ts =>
      rw [nodeListCount, serializeList]
      · simp only [List.length_append, List.length_cons]
        omega
      · simp

theorem jsonParseNode_round (n : ADFNode) : jsonParseNode (serializeNode n) = some n := by
  unfold jsonParseNode
  have h := parseNodeB_round n ((serializeNode n).length + 1) []
    (by have := serializeNode_len n; omega)
  rw [List.append_nil] at h
  rw [h]

theorem mem256_append {l1 l2 : List Nat} (h1 : ∀ b ∈ l1, b < 256)
    (h2 : ∀ b ∈ l2, b < 256) : ∀ b ∈ l1 ++ l2, b < 256 := by
  intro b hb
  rcases List.mem_append.mp hb with h | h
  · exact h1 b h
  · exact h2 b h

theorem mem256_cons {a : Nat} {l : List Nat} (ha : a < 256)
    (h : ∀ b ∈ l, b < 256) : ∀ b ∈ a :: l, b < 256 := by
  intro b hb
  rcases List.mem_cons.mp hb with rfl | h2
  · exact ha
  · exact h b h2

theorem jEscape_lt256 (s : Str) : ∀ b ∈ jEscape s, b < 256 := by
  induction s with
  | nil => simp [jEscape]
  | cons c cs ih =>
    rw [jEscape]
    refine mem256_append ?_ ih
    split_ifs with g1 g2
    · decide
    · decide
    · exact utf8Bytes_lt c

theorem jStrBytes_lt256 (s : Str) : ∀ b ∈ jStrBytes s, b < 256 := by
  rw [jStrBytes]
  exact mem256_cons (by omega) (mem256_append (jEscape_lt256 s) (by decide))

theorem intBytes_lt256 (i : Int) : ∀ b ∈ intBytes i, b < 256 := by
  unfold intBytes
  have hmap : ∀ (n : Nat), ∀ b ∈ (natDigs n).map (48 + ·), b < 256 := by
    intro n b hb
    simp only [List.mem_map] at hb
    obtain ⟨d, hd, rfl⟩ := hb
    have := natDigs_lt10 n d hd
    omega
  split_ifs with h
  · exact mem256_cons (by omega) (hmap _)
  · exact hmap _

theorem jValBytes_lt256 (v : JVal) : ∀ b ∈ jValBytes v, b < 256 := by
  match v with
  | .num n => exact intBytes_lt256 n
  | .vstr s => exact jStrBytes_lt256 s
  | .vbool true => decide
  | .vbool false => decide

theorem jPairsBytes_lt256 : ∀ (a : List (Str × JVal)), ∀ b ∈ jPairsBytes a, b < 256 := by
  intro a
  induction a using jPairsBytes.induct with
  | case1 => simp [jPairsBytes]
  | case2 k v =>
    rw [jPairsBytes]
    exact mem256_append (jStrBytes_lt256 k) (mem256_cons (by omega) (jValBytes_lt256 v))
  | case3 k v p ps ih =>
    rw [jPairsBytes]
    · exact mem256_append
        (mem256_append (jStrBytes_lt256 k) (mem256_cons (by omega) (jValBytes_lt256 v)))
        (mem256_cons (by omega) ih)
    · exact ps

theorem jMarkBytes_lt256 (m : ADFMark) : ∀ b ∈ jMarkBytes m, b < 256 := by
  obtain ⟨t, a⟩ := m
  cases a with
  | nil =>
    rw [jMarkBytes]
    exact mem256_append (mem256_append (by decide) (jStrBytes_lt256 t)) (by decide)
  | cons a0 as =>
    rw [jMarkBytes]
    · refine mem256_append (mem256_append (mem256_append (by decide) (jStrBytes_lt256 t)) ?_)
        (by decide)
      refine mem256_append (mem256_append (by decide) ?_) (by decide)
      exact mem256_cons (by omega) (jPairsBytes_lt256 (a0 :: as))
    · simp

theorem jMarksBytes_lt256 : ∀ (ms : List ADFMark), ∀ b ∈ jMarksBytes ms, b < 256 := by
  intro ms
  induction ms using jMarksBytes.induct with
  | case1 => simp [jMarksBytes]
  | case2 m =>
    rw [jMarksBytes]
    exact jMarkBytes_lt256 m
  | case3 m p ps ih =>
    rw [jMarksBytes]
    · exact mem256_append (jMarkBytes_lt256 m) (mem256_cons (by omega) ih)
    · exact ps

theorem serializeNode_lt256 : ∀ (n : ADFNode), ∀ b ∈ serializeNode n, b < 256 := by
  intro n
  induction n using ADFNode.rec
    (motive_2 := fun l => ∀ b ∈ serializeList l, b < 256) with
  | mk t c x a m ihc =>
    rw [serializeNode]
    refine mem256_append (mem256_append (mem256_append (mem256_append (mem256_append
      (mem256_append (by decide) (jStrBytes_lt256 t)) ?_) ?_) ?_) ?_) (by decide)
    · split_ifs
      · simp
      · exact mem256_append (mem256_append (by decide) ihc) (by decide)
    · unfold textSeg
      split_ifs
      · simp
      · exact mem256_append (by decide) (jStrBytes_lt256 x)
    · unfold attrsSeg
      split_ifs
      · simp
      · exact mem256_append (mem256_append (by decide)
          (mem256_cons (by omega) (jPairsBytes_lt256 a))) (by decide)
    · unfold marksSeg
      split_ifs
      · simp
      · exact mem256_append (mem256_append (by decide) (jMarksBytes_lt256 m)) (by decide)
  | nil =>
    rename_i b hb
    simp [serializeList] at hb
  | cons hd tl ih1 ih2 =>
    rename_i b hb
    revert b
    cases tl with
    | nil =>
      rw [serializeList]
      exact ih1
    | cons t0 ts =>
      rw [serializeList]
      · exact mem256_append ih1 (mem256_cons (by omega) ih2)
      · simp

/-! ## The Preservation Marker Codec (`marshal.go` / `unmarshal.go`)

```go
const (
    preserveStart = "<!-- PRESERVED:"
    preserveData  = "<!-- data:"
    preserveEnd   = "<!-- /PRESERVED -->"
)
```
-/

/-- Go constant `preserveStart`. -/
def preserveStartS : Str := str "<!-- PRESERVED:"

/-- Go constant `preserveData`. -/
def preserveDataS : Str := str "<!-- data:"

/-- Go constant `preserveEnd`. -/
def preserveEndS : Str := str "<!-- /PRESERVED -->"

/-- The fixed `preservedDescriptions` table of `marshal.go`. -/
def preservedDescriptions : List (Str × Str) :=
  [ (str "mediaSingle", str "Inline image"),
    (str "mediaGroup", str "Image group"),
    (str "media", str "Attachment"),
    (str "panel", str "Info/warning panel"),
    (str "expand", str "Expand/collapse section"),
    (str "nestedExpand", str "Nested expand section"),
    (str "extension", str "JIRA extension"),
    (str "bodiedExtension", str "JIRA macro"),
    (str "inlineExtension", str "Inline JIRA macro"),
    (str "multiBodiedExtension", str "Multi-body JIRA macro"),
    (str "layoutSection", str "Layout columns"),
    (str "layoutColumn", str "Layout column"),
    (str "decisionList", str "Decision list"),
    (str "decisionItem", str "Decision item"),
    (str "taskList", str "Task checklist"),
    (str "taskItem", str "Task checkbox"),
    (str "status", str "Status lozenge"),
    (str "date", str "Date"),
    (str "placeholder", str "Placeholder") ]

/-- Map lookup over the description table. -/
def lookupStrMap (key : Str) : List (Str × Str) → Option Str
  | [] => none
  | (k, v) :: rest => if k = key then some v else lookupStrMap key rest

/-- `desc := preservedDescriptions[node.Type]; if desc == "" { desc = node.Type }`
(the table holds no empty descriptions, so a missing key is the only way
`desc` is empty). -/
def lookupDesc (t : Str) : Str :=
  match lookupStrMap t preservedDescriptions with
  | some d => d
  | none => t

/-- The fixed tail of the marker's opening line. -/
def preserveOpenTail : Str :=
  str " — Do not edit this block; it is restored on push to JIRA. -->"

/-- `writePreservedMarker` (marshal.go): the three-line marker block.  In
this model `json.Marshal` on an `ADFNode` is total, so the Go fallback
branch for a serialization error is unreachable. -/
def writePreservedMarker (node : ADFNode) : Str :=
  (preserveStartS ++ (' ' :: lookupDesc node.ty) ++ preserveOpenTail ++ ['\n']) ++
  (preserveDataS ++ b64Enc (serializeNode node) ++ str " -->" ++ ['\n']) ++
  (preserveEndS ++ ['\n'])

/-- `parsePreservedMarker` (unmarshal.go): detect a marker block at
`startIdx` in `lines` and decode the base64 payload back into a node.
Returns the decoded node plus the index after the closing line, or `none`
plus `startIdx + 1`. -/
def parsePreservedMarker (lines : List Str) (startIdx : Nat) : Option ADFNode × Nat :=
  if startIdx + 2 ≥ lines.length then (none, startIdx + 1)
  else
    let dataLine := trimSpace (lines.getD (startIdx + 1) [])
    let closeLine := trimSpace (lines.getD (startIdx + 2) [])
    if ¬(hasPfx preserveDataS dataLine) ∨ closeLine ≠ preserveEndS then (none, startIdx + 1)
    else
      let encoded := trimSpace (trimSfxIf (str " -->") (trimPfxIf preserveDataS dataLine))
      match b64Dec encoded with
      | none => (none, startIdx + 1)
      | some decoded =>
        match jsonParseNode decoded with
        | none => (none, startIdx + 1)
        | some node => (some node, startIdx + 3)

theorem trimPfxIf_append (p r : Str) : trimPfxIf p (p ++ r) = r := by
  unfold trimPfxIf
  rw [if_pos (by rw [List.isPrefixOf_iff_prefix]; exact List.prefix_append p r),
    List.drop_left]

theorem trimSfxIf_append (p q : Str) : trimSfxIf q (p ++ q) = p := by
  unfold trimSfxIf
  rw [if_pos (by rw [List.isSuffixOf_iff_suffix]; exact List.suffix_append p q)]
  have : (p ++ q).length - q.length = p.length := by
    simp [List.length_append]
  rw [this, List.take_left]

theorem splitNl_append (A B : Str) (h : '\n' ∉ A) :
    splitNl (A ++ ('\n' :: B)) = A :: splitNl B := by
  induction A with
  | nil => simp [splitNl, splitChar]
  | cons c cs ih =>
    have hc : c ≠ '\n' := fun hcc => h (by simp [hcc])
    have hcs : '\n' ∉ cs := fun hm => h (by simp [hm])
    simp only [List.cons_append, splitNl, splitChar, if_neg hc, List.append_eq]
    rw [splitNl] at ih
    rw [ih hcs]
    rfl

theorem trimSpace_eq_self_of_all (s : Str) (h : ∀ c ∈ s, isGoSpace c = false) :
    trimSpace s = s := by
  apply trimSpace_eq_self
  · intro c hc
    exact h c (by cases s with | nil => simp at hc | cons a l => simp at hc; simp [hc])
  · intro c hc
    apply h c
    have : c ∈ s.reverse := by
      cases hr : s.reverse with
      | nil => rw [← List.head?_reverse, hr] at hc; simp at hc
      | cons a l =>
        rw [← List.head?_reverse, hr] at hc
        simp at hc
        simp [hc]
    simpa using this

theorem b64Enc_no_nl (l : List Nat) : '\n' ∉ b64Enc l := by
  intro hm
  have := b64Enc_no_ws l '\n' hm
  simp [isGoSpace] at this

theorem lookupStrMap_no_nl : ∀ (tbl : List (Str × Str)) (t d : Str),
    (∀ p ∈ tbl, '\n' ∉ p.2) → lookupStrMap t tbl = some d → '\n' ∉ d := by
  intro tbl
  induction tbl with
  | nil => intro t d _ h2; simp [lookupStrMap] at h2
  | cons p ps ih =>
    intro t d h1 h2
    obtain ⟨k, v⟩ := p
    rw [lookupStrMap] at h2
    split_ifs at h2 with hk
    · cases h2
      exact h1 (k, d) (by simp)
    · exact ih t d (fun q hq => h1 q (by simp [hq])) h2

theorem preservedDescriptions_no_nl : ∀ p ∈ preservedDescriptions, '\n' ∉ p.2 := by decide

theorem lookupDesc_no_nl (t : Str) (h : '\n' ∉ t) : '\n' ∉ lookupDesc t := by
  unfold lookupDesc
  cases hl : lookupStrMap t preservedDescriptions with
  | none => exact h
  | some d => exact lookupStrMap_no_nl preservedDescriptions t d preservedDescriptions_no_nl hl

/-- C2 (amended): round-trip of the Preservation Marker Codec — decoding
the lines of an encoded marker block restores the original node exactly,
for every node whose tag contains no newline.  The newline restriction is
the amendment: a newline in the tag breaks the opening marker line in two
(the description is interpolated raw), after which the decoder rejects the
block, so `Decode(Encode(n)) = n` does not hold for every serializable
node (see the counterexample). -/
theorem marker_decode_encode (n : ADFNode) (h : '\n' ∉ n.ty) :
    parsePreservedMarker (splitNl (writePreservedMarker n)) 0 = (some n, 3) := by
  have hL0 : '\n' ∉ preserveStartS ++ (' ' :: lookupDesc n.ty) ++ preserveOpenTail := by
    intro hm
    rcases List.mem_append.mp hm with hm | hm
    · rcases List.mem_append.mp hm with hm | hm
      · revert hm; decide
      · rcases List.mem_cons.mp hm with hm | hm
        · exact absurd hm.symm (by decide)
        · exact lookupDesc_no_nl n.ty h hm
    · revert hm; decide
  have hL1 : '\n' ∉ preserveDataS ++ b64Enc (serializeNode n) ++ str " -->" := by
    intro hm
    rcases List.mem_append.mp hm with hm | hm
    · rcases List.mem_append.mp hm with hm | hm
      · revert hm; decide
      · exact b64Enc_no_nl (serializeNode n) hm
    · revert hm; decide
  have hsplit : splitNl (writePreservedMarker n) =
      [preserveStartS ++ (' ' :: lookupDesc n.ty) ++ preserveOpenTail,
       preserveDataS ++ b64Enc (serializeNode n) ++ str " -->",
       preserveEndS, []] := by
    unfold writePreservedMarker
    have e : (preserveStartS ++ (' ' :: lookupDesc n.ty) ++ preserveOpenTail ++ ['\n']) ++
        (preserveDataS ++ b64Enc (serializeNode n) ++ str " -->" ++ ['\n']) ++
        (preserveEndS ++ ['\n']) =
        (preserveStartS ++ (' ' :: lookupDesc n.ty) ++ preserveOpenTail) ++
          ('\n' :: ((preserveDataS ++ b64Enc (serializeNode n) ++ str " -->") ++
            ('\n' :: (preserveEndS ++ ('\n' :: ([] : Str)))))) := by
      simp
    rw [e, splitNl_append _ _ hL0, splitNl_append _ _ hL1,
      splitNl_append _ _ (by decide)]
    rfl
  rw [hsplit]
  have htrim1 : trimSpace (preserveDataS ++ (b64Enc (serializeNode n) ++ str " -->")) =
      preserveDataS ++ (b64Enc (serializeNode n) ++ str " -->") := by
    apply trimSpace_eq_self
    · intro c hc
      have e : preserveDataS ++ (b64Enc (serializeNode n) ++ str " -->") =
          '<' :: (str "!-- data:" ++ (b64Enc (serializeNode n) ++ str " -->")) := by
        simp [preserveDataS, str]
      rw [e] at hc
      simp at hc
      subst hc
      decide
    · intro c hc
      rw [← List.head?_reverse] at hc
      have e : (preserveDataS ++ (b64Enc (serializeNode n) ++ str " -->")).reverse =
          '>' :: ((str " --").reverse ++ ((b64Enc (serializeNode n)).reverse ++
            preserveDataS.reverse)) := by
        simp [preserveDataS, str]
      rw [e] at hc
      simp at hc
      subst hc
      decide
  have htrim2 : trimSpace preserveEndS = preserveEndS := by decide
  have hpfx : hasPfx preserveDataS
      (preserveDataS ++ (b64Enc (serializeNode n) ++ str " -->")) = true := by
    unfold hasPfx
    rw [List.isPrefixOf_iff_prefix]
    exact List.prefix_append _ _
  have hext : trimSpace (trimSfxIf (str " -->")
      (trimPfxIf preserveDataS
        (preserveDataS ++ (b64Enc (serializeNode n) ++ str " -->")))) =
      b64Enc (serializeNode n) := by
    rw [trimPfxIf_append, trimSfxIf_append]
    exact trimSpace_eq_self_of_all _ (b64Enc_no_ws (serializeNode n))
  have hb64 := b64Dec_b64Enc (serializeNode n) (serializeNode_lt256 n)
  have hjson := jsonParseNode_round n
  simp only [List.append_assoc] at htrim1 hpfx hext ⊢
  simp [parsePreservedMarker, htrim1, htrim2, hpfx, hext, hb64, hjson]

/-! ## The Forward Renderer (`marshal.go`) -/

/-- `applyMarks`: wrap `text` with the markdown for each mark, in mark-list
order (each wrap nests around the previous result).  The Go `switch` has no
default case, so `subsup` and unknown marks leave the text unchanged. -/
def applyMarks (text : Str) : List ADFMark → Str
  | [] => text
  | ⟨mt, mattrs⟩ :: rest =>
    let wrapped :=
      if mt = str "strong" then str "**" ++ text ++ str "**"
      else if mt = str "em" then str "*" ++ text ++ str "*"
      else if mt = str "code" then str "`" ++ text ++ str "`"
      else if mt = str "strike" then str "~~" ++ text ++ str "~~"
      else if mt = str "link" then
        let href := match lookupAttr (str "href") mattrs with
          | some (.vstr h) => h
          | _ => []
        str "[" ++ text ++ str "](" ++ href ++ str ")"
      else if mt = str "underline" then str "_" ++ text ++ str "_"
      else text
    applyMarks wrapped rest

/-- String-valued attribute lookup with `""` fallback, as in the Go
`if v, ok := node.Attrs[k]; ok { if s, ok := v.(string); ok { … } }`
pattern. -/
def lookupStrAttr (k : Str) (attrs : List (Str × JVal)) : Str :=
  match lookupAttr k attrs with
  | some (.vstr s) => s
  | _ => []

/-- The bold-stripping loop of `renderTable` on header-cell text
(fuel-structural; `fuel = t.length` suffices since each round removes four
characters). -/
def stripBoldF : Nat → Str → Str
  | 0, t => t
  | fuel + 1, t =>
    if hasPfx (str "**") t ∧ hasSfx (str "**") t ∧ t.length > 4 then
      stripBoldF fuel ((t.drop 2).take (t.length - 4))
    else t

/-- Header-cell bold stripping:
`for strings.HasPrefix(text, "**") && strings.HasSuffix(text, "**") && len(text) > 4`. -/
def stripBold (t : Str) : Str := stripBoldF t.length t

/-- Concatenation of the `Text` fields of a node list (`codeBlock`
rendering). -/
def concatTexts : List ADFNode → Str
  | [] => []
  | .mk _ _ x _ _ :: rest => x ++ concatTexts rest

/-- Prefix every line with `"> "` and terminate it (blockquote
rendering). -/
def joinQuoted : List Str → Str
  | [] => []
  | l :: rest => str "> " ++ l ++ str "\n" ++ joinQuoted rest

/-- `padRow`: right-pad a row with empty cells up to `cols`. -/
def padRow (row : List Str) (cols : Nat) : List Str :=
  row ++ List.replicate (cols - row.length) []

/-- `maxCols` computation of `renderTable`. -/
def maxColsOf (rows : List (List Str)) : Nat :=
  rows.foldl (fun m r => if r.length > m then r.length else m) 0

/-- One table row line: `"| " ++ cells joined by " | " ++ " |\n"`. -/
def rowLine (row : List Str) (cols : Nat) : Str :=
  str "| " ++ List.intercalate (str " | ") (padRow row cols) ++ str " |\n"

/-- The remaining rows of a table. -/
def renderRowsStr : List (List Str) → Nat → Str
  | [], _ => []
  | r :: rest, cols => rowLine r cols ++ renderRowsStr rest cols

/-- The printing half of `renderTable`: first row, separator row, remaining
rows, blank line. -/
def renderTableStr : List (List Str) → Str
  | [] => []
  | r0 :: rest =>
    let maxCols := maxColsOf (r0 :: rest)
    rowLine r0 maxCols ++
    (str "| " ++ List.intercalate (str " | ") (List.replicate maxCols (str "---")) ++
      str " |\n") ++
    renderRowsStr rest maxCols ++ str "\n"

/-- The 19 tags routed to the Preservation Marker Codec by `renderNode`'s
explicit case list. -/
def preservedTags : List Str :=
  [str "mediaGroup", str "mediaSingle", str "media", str "panel", str "expand",
   str "nestedExpand", str "extension", str "bodiedExtension", str "inlineExtension",
   str "layoutSection", str "layoutColumn", str "decisionList", str "decisionItem",
   str "taskList", str "taskItem", str "status", str "date", str "placeholder",
   str "multiBodiedExtension"]

mutual
/-- `renderNode` (marshal.go) with the `listItem` child-loop dispatch folded
in as a `mode` argument (so all recursion is on strict subterms): mode `0`
is a plain `renderNode(node, pfx)` call; inside a `listItem`'s child loop
the Go code special-cases `i == 0 && child.Type == "paragraph"` (mode `2`
is a first child) and `bulletList` / `orderedList` children (any `i`, so
also mode `1`), and otherwise calls `renderNode(child, listPrefix)` — the
final `else` here.  The `isHeaderRow` flag of the Go `renderTable` only
toggles itself and never affects output, so it is not modeled. -/
def renderNodeM : Nat → ADFNode → Str → Str
  | mode, n@(.mk t c x attrs marks), pfx =>
    if mode = 2 ∧ t = str "paragraph" then pfx ++ renderInlineL c ++ str "\n"
    else if 1 ≤ mode ∧ t = str "bulletList" then
      renderNestedItems false 1 (repChar ' ' pfx.length) c
    else if 1 ≤ mode ∧ t = str "orderedList" then
      renderNestedItems true 1 (repChar ' ' pfx.length) c
    else if t = str "doc" then renderNodes c []
    else if t = str "paragraph" then renderInlineL c ++ str "\n\n"
    else if t = str "heading" then
      let level : Nat := match lookupAttr (str "level") attrs with
        | some (.num l) => l.toNat
        | _ => 2
      repChar '#' level ++ str " " ++ renderInlineL c ++ str "\n\n"
    else if t = str "bulletList" then renderNodes c (str "- ")
    else if t = str "orderedList" then renderOrdItems 1 c
    else if t = str "listItem" then renderItemKids true c pfx
    else if t = str "codeBlock" then
      let lang := lookupStrAttr (str "language") attrs
      str "```" ++ lang ++ str "\n" ++ concatTexts c ++ str "\n```\n\n"
    else if t = str "blockquote" then
      joinQuoted (splitNl (trimRightChars (str "\n") (renderNodes c []))) ++ str "\n"
    else if t = str "rule" then str "---\n\n"
    else if t = str "table" then renderTableStr (tableRowsOf c)
    else if t = str "text" then applyMarks x marks
    else if t = str "hardBreak" then str "\n"
    else if t = str "mention" then str "@" ++ lookupStrAttr (str "text") attrs
    else if t = str "inlineCard" then
      str "[link](" ++ lookupStrAttr (str "url") attrs ++ str ")"
    else if t = str "emoji" then
      let tx := lookupStrAttr (str "text") attrs
      if tx = [] then lookupStrAttr (str "shortName") attrs else tx
    else if t ∈ preservedTags then writePreservedMarker n
    else renderNodes c pfx
/-- `renderChildren`. -/
def renderNodes : List ADFNode → Str → Str
  | [], _ => []
  | node :: rest, pfx => renderNodeM 0 node pfx ++ renderNodes rest pfx
/-- `renderInlineChildren` over a child list (prefix `""`). -/
def renderInlineL : List ADFNode → Str
  | [] => []
  | node :: rest => renderNodeM 0 node [] ++ renderInlineL rest
/-- The `listItem` body loop: each child rendered in item-child mode (`2`
for the first child, `1` afterwards). -/
def renderItemKids : Bool → List ADFNode → Str → Str
  | _, [], _ => []
  | first, node :: rest, pfx =>
    renderNodeM (if first then 2 else 1) node pfx ++ renderItemKids false rest pfx
/-- The nested-list loop inside a `listItem`: each nested item gets
`indent ++ "- "` or `indent ++ "N. "`. -/
def renderNestedItems : Bool → Nat → Str → List ADFNode → Str
  | _, _, _, [] => []
  | ordered, j, ind, node :: rest =>
    (if ordered then renderNodeM 0 node (ind ++ natChars j ++ str ". ")
     else renderNodeM 0 node (ind ++ str "- ")) ++
    renderNestedItems ordered (j + 1) ind rest
/-- `orderedList` enumeration: prefix `"N. "` with `N` recomputed from
render order. -/
def renderOrdItems : Nat → List ADFNode → Str
  | _, [] => []
  | i, node :: rest =>
    renderNodeM 0 node (natChars i ++ str ". ") ++ renderOrdItems (i + 1) rest
/-- First pass of `renderTable`: collect rows of rendered cell texts,
skipping children that are not `tableRow`. -/
def tableRowsOf : List ADFNode → List (List Str)
  | [] => []
  | .mk rt rc _ _ _ :: rest =>
    if rt = str "tableRow" then rowCells rc :: tableRowsOf rest
    else tableRowsOf rest
/-- Cells of one table row: trimmed cell text, with surrounding bold
stripped on `tableHeader` cells. -/
def rowCells : List ADFNode → List Str
  | [] => []
  | .mk ct cc _ _ _ :: rest =>
    (if ct = str "tableHeader" then stripBold (trimSpace (cellText cc))
     else trimSpace (cellText cc)) :: rowCells rest
/-- Cell text: `renderInlineChildren` applied to each child of the cell. -/
def cellText : List ADFNode → Str
  | [] => []
  | .mk _ gc _ _ _ :: rest => renderInlineL gc ++ cellText rest
end

/-- `renderNode(node, prefix)` proper: mode `0`. -/
def renderNode (node : ADFNode) (pfx : Str) : Str := renderNodeM 0 node pfx

/-- `renderADF`: render a tree with an empty list prefix. -/
def renderADF (node : ADFNode) : Str := renderNode node []

/-! ## The Reverse Parser (`unmarshal.go`): inline parsing -/

/-- RE2's `\s` character class: `[\t\n\f\r ]`. -/
def isReSpace (c : Char) : Bool :=
  c = ' ' || c = '\t' || c = '\n' || c = '\x0c' || c = '\r'

/-- Match the link pattern `\[([^\]]+)\]\(([^)]+)\)` at the start of `s`:
`some ((text, url), matchLen)` on success.  Both character classes are
maximal runs, so the match at a fixed position is unique. -/
def matchLinkAt : Str → Option ((Str × Str) × Nat)
  | '[' :: rest =>
    let t := rest.takeWhile (· ≠ ']')
    if t = [] then none
    else
      match rest.dropWhile (· ≠ ']') with
      | ']' :: '(' :: r3 =>
        let u := r3.takeWhile (fun c => c ≠ ')')
        if u = [] then none
        else
          match r3.dropWhile (fun c => c ≠ ')') with
          | ')' :: _ => some ((t, u), t.length + u.length + 4)
          | _ => none
      | _ => none
  | _ => none

/-- Match `\*\*([^*]+)\*\*` at the start of `s`. -/
def matchBoldAt : Str → Option ((Str × Str) × Nat)
  | '*' :: '*' :: rest =>
    let run := rest.takeWhile (· ≠ '*')
    if run = [] then none
    else
      match rest.dropWhile (· ≠ '*') with
      | '*' :: '*' :: _ => some ((run, []), run.length + 4)
      | _ => none
  | _ => none

/-- Match `~~([^~]+)~~` at the start of `s`. -/
def matchStrikeAt : Str → Option ((Str × Str) × Nat)
  | '~' :: '~' :: rest =>
    let run := rest.takeWhile (· ≠ '~')
    if run = [] then none
    else
      match rest.dropWhile (· ≠ '~') with
      | '~' :: '~' :: _ => some ((run, []), run.length + 4)
      | _ => none
  | _ => none

/-- Match the inline-code pattern (backtick, one-or-more non-backticks,
backtick) at the start of `s`. -/
def matchCodeAt : Str → Option ((Str × Str) × Nat)
  | '`' :: rest =>
    let run := rest.takeWhile (· ≠ '`')
    if run = [] then none
    else
      match rest.dropWhile (· ≠ '`') with
      | '`' :: _ => some ((run, []), run.length + 2)
      | _ => none
  | _ => none

/-- Match `\*([^*]+)\*` at the start of `s`. -/
def matchItalicAt : Str → Option ((Str × Str) × Nat)
  | '*' :: rest =>
    match rest with
    | '*' :: _ => none
    | _ =>
      let run := rest.takeWhile (· ≠ '*')
      if run = [] then none
      else
        match rest.dropWhile (· ≠ '*') with
        | '*' :: _ => some ((run, []), run.length + 2)
        | _ => none
  | _ => none

/-- Leftmost match of a pattern: try the matcher at each position left to
right (`FindStringSubmatchIndex` semantics); `some (idx, groups, len)`. -/
def scanPatF (m : Str → Option ((Str × Str) × Nat)) :
    Nat → Str → Nat → Option (Nat × (Str × Str) × Nat)
  | 0, _, _ => none
  | fuel + 1, s, idx =>
    match m s with
    | some (g, l) => some (idx, g, l)
    | none =>
      match s with
      | [] => none
      | _ :: rest => scanPatF m fuel rest (idx + 1)

/-- Leftmost match of a pattern in `s`. -/
def scanPat (m : Str → Option ((Str × Str) × Nat)) (s : Str) :
    Option (Nat × (Str × Str) × Nat) :=
  scanPatF m (s.length + 1) s 0

/-- The five inline patterns, in the order of the Go `patterns` slice. -/
inductive InlinePat where
  | plink | pbold | pstrike | pcode | pitalic
deriving DecidableEq

/-- The matcher of each pattern. -/
def matcherOf : InlinePat → Str → Option ((Str × Str) × Nat)
  | .plink => matchLinkAt
  | .pbold => matchBoldAt
  | .pstrike => matchStrikeAt
  | .pcode => matchCodeAt
  | .pitalic => matchItalicAt

/-- The pattern list in Go slice order: link, bold, strike, code, italic. -/
def inlinePats : List InlinePat := [.plink, .pbold, .pstrike, .pcode, .pitalic]

/-- The selection loop of `parseInline`: run every pattern on `remaining`,
keep the match with the strictly smallest start index (`loc[0] <
earliestIdx`), so the first-listed pattern wins ties.  `earliestIdx`
starts at `remaining.length`. -/
def selPats (s : Str) : Option (InlinePat × Nat × (Str × Str) × Nat) :=
  (inlinePats.foldl
    (fun acc p =>
      match scanPat (matcherOf p) s with
      | some (idx, g, l) => if idx < acc.1 then (idx, some (p, idx, g, l)) else acc
      | none => acc)
    (s.length, none)).2

/-- The ADF text node built by each pattern's `markFn`. -/
def nodeOfMatch : InlinePat → Str × Str → ADFNode
  | .plink, (t, u) =>
    .mk (str "text") [] t [] [⟨str "link", [(str "href", JVal.vstr u)]⟩]
  | .pbold, (t, _) => markedNode t ⟨str "strong", []⟩
  | .pstrike, (t, _) => markedNode t ⟨str "strike", []⟩
  | .pcode, (t, _) => markedNode t ⟨str "code", []⟩
  | .pitalic, (t, _) => markedNode t ⟨str "em", []⟩

/-- The `for remaining != ""` loop of `parseInline` (fuel-structural;
every iteration consumes at least one character, so `text.length + 1`
fuel suffices). -/
def parseInlineLoopF : Nat → Str → List ADFNode
  | 0, _ => []
  | fuel + 1, rem =>
    if rem = [] then []
    else
      match selPats rem with
      | none => [textNode rem]
      | some (p, idx, g, l) =>
        (if 0 < idx then [textNode (rem.take idx)] else []) ++
        nodeOfMatch p g :: parseInlineLoopF fuel (rem.drop (idx + l))

/-- `parseInline` (unmarshal.go): empty input yields a single empty text
node; otherwise the scan loop, with a final empty-result fallback. -/
def parseInline (text : Str) : List ADFNode :=
  if text = [] then [textNode []]
  else
    let nodes := parseInlineLoopF (text.length + 1) text
    if nodes.isEmpty then [textNode text] else nodes

/-! ## The Reverse Parser: block-level helpers -/

/-- `parseHeading`: count leading `#` (at most 6), text is the rest
trimmed; `(0, "")` when not a heading. -/
def parseHeading (line : Str) : Nat × Str :=
  if ¬ hasPfx (str "#") line then (0, [])
  else
    let level := (line.takeWhile (· = '#')).length
    if level > 6 then (0, [])
    else (level, trimSpace (line.drop level))

/-- `splitTableRow`: trim, drop one leading and one trailing `|`, split on
`|`, trim each cell. -/
def splitTableRow (line : Str) : List Str :=
  (splitChar '|' (trimSfxIf (str "|") (trimPfxIf (str "|") (trimSpace line)))).map trimSpace

/-- `buildTableRow`: a `tableRow` of `tableHeader`/`tableCell` nodes, each
holding one paragraph of inline nodes. -/
def buildTableRow (cells : List Str) (isHeader : Bool) : ADFNode :=
  .mk (str "tableRow")
    (cells.map (fun text =>
      .mk (if isHeader then str "tableHeader" else str "tableCell")
        [.mk (str "paragraph") (parseInline text) [] [] []] [] [] []))
    [] [] []

/-- `parseMarkdownTable`: collect consecutive `|`-led lines (trimmed); fewer
than two yields `(none, start+1)`; otherwise the second line is a separator
iff every cell trimmed of `:` and `-` is empty, deciding whether the first
row is a header. -/
def parseMarkdownTable (lines : List Str) (i : Nat) : Option ADFNode × Nat :=
  let tableLines := ((lines.drop i).takeWhile (fun l => hasPfx (str "|") (trimSpace l))).map trimSpace
  match tableLines with
  | l0 :: l1 :: rest =>
    let isSep := (splitTableRow l1).all
      (fun cell => trimChars (str ":-") (trimSpace cell) = [])
    let rows :=
      if isSep then
        buildTableRow (splitTableRow l0) true ::
          rest.map (fun l => buildTableRow (splitTableRow l) false)
      else
        (l0 :: l1 :: rest).map (fun l => buildTableRow (splitTableRow l) false)
    (some (.mk (str "table") rows []
      [(str "isNumberColumnEnabled", JVal.vbool false),
       (str "layout", JVal.vstr (str "default"))] []), i + tableLines.length)
  | _ => (none, i + 1)

/-- `^[-*]\s` applied to a line: the item text after the two-character
marker, when the line is a bullet item. -/
def bulletItemTxt : Str → Option Str
  | c :: w :: rest =>
    if (c = '-' ∨ c = '*') ∧ isReSpace w then some rest else none
  | _ => none

/-- `^\d+\.\s`: the item text after the digits, dot and one whitespace
character, when the line is an ordered item. -/
def ordItemTxt (l : Str) : Option Str :=
  let ds := l.takeWhile (fun c => '0' ≤ c ∧ c ≤ '9')
  if ds = [] then none
  else
    match l.dropWhile (fun c => '0' ≤ c ∧ c ≤ '9') with
    | '.' :: w :: r2 => if isReSpace w then some r2 else none
    | _ => none

/-- `^(\s{2,}|\t)[-*]\s` resp. `^(\s{2,}|\t)\d+\.\s` as a boolean: either
the maximal leading whitespace run has length ≥ 2 and an item marker
follows it, or the line is a single tab followed by an item marker. -/
def isIndentedItem (ordered : Bool) (l : Str) : Bool :=
  let ws := l.takeWhile isReSpace
  let rest := l.dropWhile isReSpace
  (decide (2 ≤ ws.length) &&
    (if ordered then (ordItemTxt rest).isSome else (bulletItemTxt rest).isSome)) ||
  (match l with
   | '\t' :: r =>
     if ordered then (ordItemTxt r).isSome else (bulletItemTxt r).isSome
   | _ => false)

/-- The indented sub-item collection loop of `parseList`: consecutive
matching lines, each stripped of leading spaces and tabs. -/
def collectIndented (p : Str → Bool) (lines : List Str) (i : Nat) : List Str × Nat :=
  let sub := (lines.drop i).takeWhile p
  (sub.map (trimLeftChars (str " \t")), i + sub.length)

/-- `parseList` (fuel-structural: one unit per loop iteration or recursive
sub-list entry; `2 * lines.length + 1` suffices, see `parseList`). -/
def parseListF : Nat → List Str → Nat → Bool → List ADFNode × Nat
  | 0, _, i, _ => ([], i)
  | fuel + 1, lines, i, ordered =>
    match lines.drop i with
    | [] => ([], i)
    | line :: after =>
      match (if ordered then ordItemTxt line else bulletItemTxt line) with
      | none => ([], i)
      | some text =>
        let para : ADFNode := .mk (str "paragraph") (parseInline text) [] [] []
        let (item, i2) :=
          match after with
          | [] => (ADFNode.mk (str "listItem") [para] [] [] [], i + 1)
          | next :: _ =>
            if isIndentedItem false next then
              let (subLines, i2) := collectIndented (isIndentedItem false) lines (i + 1)
              (ADFNode.mk (str "listItem")
                [para, .mk (str "bulletList") (parseListF fuel subLines 0 false).1 [] [] []]
                [] [] [], i2)
            else if isIndentedItem true next then
              let (subLines, i2) := collectIndented (isIndentedItem true) lines (i + 1)
              (ADFNode.mk (str "listItem")
                [para, .mk (str "orderedList") (parseListF fuel subLines 0 true).1 [] [] []]
                [] [] [], i2)
            else (ADFNode.mk (str "listItem") [para] [] [] [], i + 1)
        let (restItems, i3) := parseListF fuel lines i2 ordered
        (item :: restItems, i3)

/-- `parseList(lines, i, ordered)`. -/
def parseList (lines : List Str) (i : Nat) (ordered : Bool) : List ADFNode × Nat :=
  parseListF (2 * lines.length + 1) lines i ordered

/-! ## The Reverse Parser: the block loop of `markdownToADF` -/

/-- The code-fence body collection loop: lines up to (and consuming) the
first line whose trimmed form is exactly three backticks. -/
def collectCode (lines : List Str) (i : Nat) : List Str × Nat :=
  let body := (lines.drop i).takeWhile (fun l => ¬ (trimSpace l = str "```"))
  (body, if i + body.length < lines.length then i + body.length + 1 else i + body.length)

/-- The blockquote collection loop: consecutive lines starting with `"> "`
or trimming to `">"`, each stripped of one `"> "` then one `">"`. -/
def collectQuote (lines : List Str) (i : Nat) : List Str × Nat :=
  let q := (lines.drop i).takeWhile (fun l => hasPfx (str "> ") l || trimSpace l = str ">")
  (q.map (fun l => trimPfxIf (str ">") (trimPfxIf (str "> ") l)), i + q.length)

/-- The paragraph-loop break test of `markdownToADF` (note the mix of raw
and trimmed prefixes, and that `"___"` is absent). -/
def paraBreak (l : Str) : Bool :=
  let trimmed := trimSpace l
  trimmed.isEmpty ||
  hasPfx (str "#") l || hasPfx (str "```") l || hasPfx (str "> ") l ||
  hasPfx (str "- ") l || hasPfx (str "* ") l ||
  trimmed = str "---" || trimmed = str "***" ||
  hasPfx preserveStartS trimmed ||
  hasPfx (str "|") trimmed ||
  (ordItemTxt l).isSome

/-- The `for i < len(lines)` loop of `markdownToADF`, dispatching each line
in source order (blank, marker with fall-through, rule, heading, code
fence, blockquote, bullet list, ordered list, table with fall-through,
paragraph).  Fuel-structural: one unit per iteration; `none` means the
fuel ran out, and `(∀ fuel, … = none)` means the Go loop never
terminates (an iteration that consumes no line and appends nothing
repeats forever, since the state is exactly `(lines, i)`). -/
def blockLoopF : Nat → List Str → Nat → Option (List ADFNode)
  | 0, _, _ => none
  | fuel + 1, lines, i =>
    match lines.drop i with
    | [] => some []
    | line :: _ =>
      let tl := trimSpace line
      if tl = [] then blockLoopF fuel lines (i + 1)
      else
        let marker : Option (ADFNode × Nat) :=
          if hasPfx preserveStartS tl then
            match parsePreservedMarker lines i with
            | (some n, e) => some (n, e)
            | (none, _) => none
          else none
        match marker with
        | some (n, e) => (blockLoopF fuel lines e).map (n :: ·)
        | none =>
          if tl = str "---" ∨ tl = str "***" ∨ tl = str "___" then
            (blockLoopF fuel lines (i + 1)).map (ADFNode.mk (str "rule") [] [] [] [] :: ·)
          else if 0 < (parseHeading line).1 then
            (blockLoopF fuel lines (i + 1)).map
              (ADFNode.mk (str "heading") (parseInline (parseHeading line).2) []
                [(str "level", JVal.num (parseHeading line).1)] [] :: ·)
          else if hasPfx (str "```") tl then
            let lang := trimSpace (trimPfxIf (str "```") tl)
            let (codeLines, newI) := collectCode lines (i + 1)
            let node := ADFNode.mk (str "codeBlock")
              [.mk (str "text") [] (List.intercalate (str "\n") codeLines) [] []] []
              (if lang = [] then [] else [(str "language", JVal.vstr lang)]) []
            (blockLoopF fuel lines newI).map (node :: ·)
          else if hasPfx (str "> ") line ∨ line = str ">" then
            let (quoteLines, newI) := collectQuote lines i
            match blockLoopF fuel (splitNl (List.intercalate (str "\n") quoteLines)) 0 with
            | some inner =>
              (blockLoopF fuel lines newI).map
                (ADFNode.mk (str "blockquote") inner [] [] [] :: ·)
            | none => none
          else if hasPfx (str "- ") line ∨ hasPfx (str "* ") line then
            let (items, newI) := parseList lines i false
            (blockLoopF fuel lines newI).map
              (ADFNode.mk (str "bulletList") items [] [] [] :: ·)
          else if (ordItemTxt line).isSome then
            let (items, newI) := parseList lines i true
            (blockLoopF fuel lines newI).map
              (ADFNode.mk (str "orderedList") items [] [] [] :: ·)
          else
            let tableRes :=
              if hasPfx (str "|") tl then parseMarkdownTable lines i else (none, 0)
            match tableRes with
            | (some tnode, newI) => (blockLoopF fuel lines newI).map (tnode :: ·)
            | (none, _) =>
              let paraLines := (lines.drop i).takeWhile (fun l => ¬ paraBreak l)
              let newI := i + paraLines.length
              if paraLines.isEmpty then blockLoopF fuel lines newI
              else
                (blockLoopF fuel lines newI).map
                  (ADFNode.mk (str "paragraph")
                    (parseInline (List.intercalate (str " ") paraLines)) [] [] [] :: ·)

/-- `markdownToADF(md)` under the given loop fuel: the `doc` node with
`version: 1` wrapping the block sequence; `none` models the Go function
failing to terminate within `fuel` loop iterations. -/
def markdownToADF (fuel : Nat) (md : Str) : Option ADFNode :=
  (blockLoopF fuel (splitNl md) 0).map
    (fun content => ADFNode.mk (str "doc") content [] [(str "version", JVal.num 1)] [])

/-! ## The Frontmatter Splitter (`splitFrontmatter`) -/

/-- `splitFrontmatter`: trim the content, require a `"---"` prefix, drop
three characters, strip leading newlines, find `"\n---"`, and split there
(body starts 4 characters past the match, then strips leading newlines).
`none` models the two error returns. -/
def splitFrontmatter (content : Str) : Option (Str × Str) :=
  let c := trimSpace content
  if ¬ hasPfx (str "---") c then none
  else
    let rest := trimLeftChars (str "\n\r") (c.drop 3)
    match findSub (str "\n---") rest with
    | none => none
    | some idx =>
      some (rest.take idx, trimLeftChars (str "\n\r") (rest.drop (idx + 4)))

/-! ## Helper lemmas for the claim layer -/

theorem applyMarks_append (x : Str) (m1 m2 : List ADFMark) :
    applyMarks x (m1 ++ m2) = applyMarks (applyMarks x m1) m2 := by
  induction m1 generalizing x with
  | nil => rfl
  | cons m rest ih =>
    cases m with
    | mk mt mattrs => simp only [List.cons_append, applyMarks]; exact ih _

theorem charPfx_cons_neq (a b : Char) (p l : Str) (h : ¬a = b) :
    ((a :: p).isPrefixOf (b :: l)) = false := by
  rw [Bool.eq_false_iff]
  intro hc
  rw [List.isPrefixOf_iff_prefix, List.cons_prefix_cons] at hc
  exact h hc.1

/-- Lower-case ASCII letters: a character set inert to every block and
inline construct of the transcoder. -/
def isPlainCh (c : Char) : Bool := 'a' ≤ c && c ≤ 'z'

theorem plain_not_space (c : Char) (h : isPlainCh c = true) : isGoSpace c = false := by
  simp only [isPlainCh, Bool.and_eq_true, decide_eq_true_eq] at h
  obtain ⟨h1, _⟩ := h
  simp only [isGoSpace, Bool.or_eq_false_iff, decide_eq_false_iff_not]
  refine ⟨⟨⟨⟨⟨?_, ?_⟩, ?_⟩, ?_⟩, ?_⟩, ?_⟩ <;>
    (rintro rfl; revert h1; decide)

theorem plain_ne (c d : Char) (h : isPlainCh c = true) (hd : isPlainCh d = false) :
    ¬ d = c := by
  rintro rfl
  rw [h] at hd
  exact Bool.noConfusion hd

theorem plain_mem (s : Str) (h : ∀ c ∈ s, isPlainCh c = true) (d : Char)
    (hd : isPlainCh d = false) : d ∉ s := by
  intro hm
  exact plain_ne d d (h d hm) hd rfl

theorem matchLinkAt_head (c : Char) (s : Str) (hc : ¬ c = '[') :
    matchLinkAt (c :: s) = none := by
  rw [matchLinkAt.eq_def]
  split
  · rename_i rest heq
    injection heq with h1 _
    exact absurd h1 hc
  · rfl

theorem matchBoldAt_head (c : Char) (s : Str) (hc : ¬ c = '*') :
    matchBoldAt (c :: s) = none := by
  rw [matchBoldAt.eq_def]
  split
  · rename_i rest heq
    injection heq with h1 _
    exact absurd h1 hc
  · rfl

theorem matchStrikeAt_head (c : Char) (s : Str) (hc : ¬ c = '~') :
    matchStrikeAt (c :: s) = none := by
  rw [matchStrikeAt.eq_def]
  split
  · rename_i rest heq
    injection heq with h1 _
    exact absurd h1 hc
  · rfl

theorem matchCodeAt_head (c : Char) (s : Str) (hc : ¬ c = '`') :
    matchCodeAt (c :: s) = none := by
  rw [matchCodeAt.eq_def]
  split
  · rename_i rest heq
    injection heq with h1 _
    exact absurd h1 hc
  · rfl

theorem matchItalicAt_head (c : Char) (s : Str) (hc : ¬ c = '*') :
    matchItalicAt (c :: s) = none := by
  rw [matchItalicAt.eq_def]
  split
  · rename_i rest heq
    injection heq with h1 _
    exact absurd h1 hc
  · rfl

theorem matcherOf_plain (p : InlinePat) (s : Str) (h : ∀ c ∈ s, isPlainCh c = true) :
    matcherOf p s = none := by
  cases s with
  | nil => cases p <;> rfl
  | cons c rest =>
    have hc := h c (by simp)
    cases p
    · exact matchLinkAt_head c rest (fun e => plain_ne c '[' hc (by decide) e.symm)
    · exact matchBoldAt_head c rest (fun e => plain_ne c '*' hc (by decide) e.symm)
    · exact matchStrikeAt_head c rest (fun e => plain_ne c '~' hc (by decide) e.symm)
    · exact matchCodeAt_head c rest (fun e => plain_ne c '`' hc (by decide) e.symm)
    · exact matchItalicAt_head c rest (fun e => plain_ne c '*' hc (by decide) e.symm)

theorem scanPatF_plain (p : InlinePat) (fuel : Nat) :
    ∀ (s : Str) (idx : Nat), (∀ c ∈ s, isPlainCh c = true) →
      scanPatF (matcherOf p) fuel s idx = none := by
  induction fuel with
  | zero => intros; rfl
  | succ f ih =>
    intro s idx h
    simp only [scanPatF, matcherOf_plain p s h]
    cases s with
    | nil => rfl
    | cons c rest => exact ih rest (idx + 1) (fun d hd => h d (by simp [hd]))

theorem selPats_plain (s : Str) (h : ∀ c ∈ s, isPlainCh c = true) :
    selPats s = none := by
  have h0 := scanPatF_plain .plink (s.length + 1) s 0 h
  have h1 := scanPatF_plain .pbold (s.length + 1) s 0 h
  have h2 := scanPatF_plain .pstrike (s.length + 1) s 0 h
  have h3 := scanPatF_plain .pcode (s.length + 1) s 0 h
  have h4 := scanPatF_plain .pitalic (s.length + 1) s 0 h
  simp only [selPats, inlinePats, List.foldl, scanPat, h0, h1, h2, h3, h4]

theorem parseInline_plain (s : Str) (hne : s ≠ [])
    (h : ∀ c ∈ s, isPlainCh c = true) : parseInline s = [textNode s] := by
  simp only [parseInline, if_neg hne, parseInlineLoopF, selPats_plain s h,
    List.isEmpty_cons, Bool.false_eq_true, if_false]

theorem plain_no_pfx (d : Char) (ds : Str) (c : Char) (r : Str)
    (hd : isPlainCh d = false) (hc : isPlainCh c = true) :
    hasPfx (d :: ds) (c :: r) = false :=
  charPfx_cons_neq d c ds r (plain_ne c d hc hd)

theorem plain_ne_str (s lit : Str) (hall : ∀ x ∈ s, isPlainCh x = true)
    (d : Char) (hd : isPlainCh d = false) (hmem : d ∈ lit) : ¬ (s = lit) := by
  intro e
  exact plain_mem s hall d hd (by rw [e]; exact hmem)

theorem ordItemTxt_plain (c : Char) (r : Str) (hc : isPlainCh c = true) :
    ordItemTxt (c :: r) = none := by
  have h9 : ¬ (c ≤ '9') := by
    intro h9
    simp only [isPlainCh, Bool.and_eq_true, decide_eq_true_eq] at hc
    exact absurd (le_trans hc.1 h9) (by decide)
  have hb : decide ('0' ≤ c ∧ c ≤ '9') = false :=
    decide_eq_false (fun hx => h9 hx.2)
  simp [ordItemTxt, List.takeWhile_cons, hb]
  exact fun _ hx => absurd hx h9

theorem paraBreak_nil : paraBreak [] = true := rfl

theorem paraBreak_plain (c : Char) (r : Str) (h : ∀ d ∈ c :: r, isPlainCh d = true) :
    paraBreak (c :: r) = false := by
  have hc := h c (List.mem_cons_self c r)
  have htr : trimSpace (c :: r) = c :: r :=
    trimSpace_eq_self_of_all _ (fun d hd => plain_not_space d (h d hd))
  have e1 : str "#" = '#' :: [] := rfl
  have e2 : str "```" = '`' :: str "``" := rfl
  have e3 : str "> " = '>' :: str " " := rfl
  have e4 : str "- " = '-' :: str " " := rfl
  have e5 : str "* " = '*' :: str " " := rfl
  have e6 : str "|" = '|' :: [] := rfl
  have e7 : preserveStartS = '<' :: str "!-- PRESERVED:" := rfl
  have p1 := plain_no_pfx '#' [] c r (by decide) hc
  have p2 := plain_no_pfx '`' (str "``") c r (by decide) hc
  have p3 := plain_no_pfx '>' (str " ") c r (by decide) hc
  have p4 := plain_no_pfx '-' (str " ") c r (by decide) hc
  have p5 := plain_no_pfx '*' (str " ") c r (by decide) hc
  have p6 := plain_no_pfx '|' [] c r (by decide) hc
  have p7 := plain_no_pfx '<' (str "!-- PRESERVED:") c r (by decide) hc
  have q1 : ¬((c :: r) = str "---") := plain_ne_str _ _ h '-' (by decide) (by decide)
  have q2 : ¬((c :: r) = str "***") := plain_ne_str _ _ h '*' (by decide) (by decide)
  have q3 := ordItemTxt_plain c r hc
  simp only [paraBreak, htr, e1, e2, e3, e4, e5, e6, e7, p1, p2, p3, p4, p5, p6, p7,
    q1, q2, q3, List.isEmpty_cons, Option.isSome_none, decide_eq_false,
    Bool.or_false, Bool.false_or]
  decide

theorem intercalate_single (sep x : Str) : List.intercalate sep [x] = x := by
  simp [List.intercalate]

/-- Block loop on a sequence of single-line plain paragraphs, each followed
by a blank line (the exact line shape produced by rendering a document of
plain paragraphs). -/
theorem blockLoop_plainParas (ts : List Str) :
    ∀ (pre : List Str) (fuel : Nat),
      (∀ t ∈ ts, t ≠ [] ∧ ∀ c ∈ t, isPlainCh c = true) →
      2 * ts.length + 2 ≤ fuel →
      blockLoopF fuel
          (pre ++ ((ts.map (fun t => [t, ([] : Str)])).flatten ++ [([] : Str)]))
          pre.length
        = some (ts.map (fun t => ADFNode.mk (str "paragraph") [textNode t] [] [] [])) := by
  induction ts with
  | nil =>
    intro pre fuel _ hf
    obtain ⟨f, rfl⟩ : ∃ f, fuel = f + 1 + 1 := ⟨fuel - 2, by omega⟩
    simp only [List.map_nil, List.flatten_nil, List.nil_append]
    have hdrop : (pre ++ [([] : Str)]).drop pre.length = [([] : Str)] :=
      List.drop_left pre _
    have hdrop2 : (pre ++ [([] : Str)]).drop (pre.length + 1) = [] := by
      rw [show pre.length + 1 = (pre ++ [([] : Str)]).length by simp]
      exact List.drop_length _
    simp only [blockLoopF]
    rw [hdrop, hdrop2]
    rfl
  | cons t ts' ih =>
    intro pre fuel h hf
    obtain ⟨ht_ne, ht_pl⟩ := h t (List.mem_cons_self t ts')
    obtain ⟨c, r, rfl⟩ : ∃ c r, t = c :: r := by
      cases t with
      | nil => exact absurd rfl ht_ne
      | cons a b => exact ⟨a, b, rfl⟩
    obtain ⟨g, rfl⟩ : ∃ g, fuel = g + 1 + 1 := ⟨fuel - 2, by omega⟩
    simp only [List.map_cons, List.flatten_cons, List.cons_append, List.nil_append,
      List.length_cons] at hf ⊢
    set Y := (ts'.map (fun t => [t, ([] : Str)])).flatten ++ [([] : Str)] with hY
    have hdrop : (pre ++ ((c :: r) :: ([] : Str) :: Y)).drop pre.length
        = (c :: r) :: ([] : Str) :: Y := List.drop_left pre _
    have hdrop2 : (pre ++ ((c :: r) :: ([] : Str) :: Y)).drop (pre.length + 1)
        = ([] : Str) :: Y := by
      have hre : pre ++ ((c :: r) :: ([] : Str) :: Y)
          = (pre ++ [(c :: r)]) ++ (([] : Str) :: Y) := by simp
      rw [hre, show pre.length + 1 = (pre ++ [(c :: r)]).length by simp]
      exact List.drop_left _ _
    -- the dispatch facts for the plain line c :: r
    have hc := ht_pl c (List.mem_cons_self c r)
    have htr : trimSpace (c :: r) = c :: r :=
      trimSpace_eq_self_of_all _ (fun d hd => plain_not_space d (ht_pl d hd))
    have e1 : str "#" = '#' :: [] := rfl
    have e2 : str "```" = '`' :: str "``" := rfl
    have e3 : str "> " = '>' :: str " " := rfl
    have e4 : str "- " = '-' :: str " " := rfl
    have e5 : str "* " = '*' :: str " " := rfl
    have e6 : str "|" = '|' :: [] := rfl
    have e7 : preserveStartS = '<' :: str "!-- PRESERVED:" := rfl
    have p1 := plain_no_pfx '#' [] c r (by decide) hc
    have p2 := plain_no_pfx '`' (str "``") c r (by decide) hc
    have p3 := plain_no_pfx '>' (str " ") c r (by decide) hc
    have p4 := plain_no_pfx '-' (str " ") c r (by decide) hc
    have p5 := plain_no_pfx '*' (str " ") c r (by decide) hc
    have p6 := plain_no_pfx '|' [] c r (by decide) hc
    have p7 := plain_no_pfx '<' (str "!-- PRESERVED:") c r (by decide) hc
    have q1 : ¬((c :: r) = str "---") := plain_ne_str _ _ ht_pl '-' (by decide) (by decide)
    have q2 : ¬((c :: r) = str "***") := plain_ne_str _ _ ht_pl '*' (by decide) (by decide)
    have q2b : ¬((c :: r) = str "___") := plain_ne_str _ _ ht_pl '_' (by decide) (by decide)
    have q2c : ¬((c :: r) = str ">") := plain_ne_str _ _ ht_pl '>' (by decide) (by decide)
    have q3 := ordItemTxt_plain c r hc
    have hhd : parseHeading (c :: r) = (0, []) := by
      simp [parseHeading, e1, p1]
    have hpb : paraBreak (c :: r) = false := paraBreak_plain c r ht_pl
    have hpi : parseInline (c :: r) = [textNode (c :: r)] :=
      parseInline_plain _ (by simp) ht_pl
    have st3 : ∀ j, j = pre.length + 1 + 1 →
        blockLoopF g (pre ++ ((c :: r) :: ([] : Str) :: Y)) j
        = some (ts'.map (fun t => ADFNode.mk (str "paragraph") [textNode t] [] [] [])) := by
      intro j hj
      have hre : pre ++ ((c :: r) :: ([] : Str) :: Y)
          = (pre ++ [(c :: r), ([] : Str)]) ++ Y := by simp
      rw [hj, hre, show pre.length + 1 + 1 = (pre ++ [(c :: r), ([] : Str)]).length by simp]
      exact ih (pre ++ [(c :: r), ([] : Str)]) g
        (fun x hx => h x (List.mem_cons_of_mem _ hx)) (by omega)
    have hne0 : ((c :: r) = ([] : Str)) = False := eq_false (List.cons_ne_nil c r)
    have htre : trimSpace ([] : Str) = [] := rfl
    simp only [blockLoopF]
    rw [hdrop]
    simp only [htr, hne0, htre, e1, e2, e3, e4, e5, e6, e7, p1, p2, p3, p4, p5, p6, p7,
      q1, q2, q2b, q2c, q3, hhd, hpb, paraBreak_nil, hdrop2,
      List.takeWhile_cons, decide_eq_true_eq, Bool.not_eq_true,
      Option.isSome_none, Bool.false_eq_true, if_false, if_true, or_false, false_or,
      List.isEmpty_cons, List.length_cons, List.length_nil,
      lt_self_iff_false, eq_self_iff_true, Option.map_some, Bool.true_eq_false,
      Nat.zero_add, Nat.add_zero,
      intercalate_single, hpi, st3 _ rfl]
    rfl

theorem renderNodes_plainParas (ts : List Str) :
    renderNodes (ts.map (fun t => ADFNode.mk (str "paragraph") [textNode t] [] [] [])) []
      = ts.foldr (fun t acc => t ++ '\n' :: '\n' :: acc) [] := by
  induction ts with
  | nil => rfl
  | cons t rest ih =>
    have hstep : renderNodes
        ((ADFNode.mk (str "paragraph") [textNode t] [] [] []) ::
          rest.map (fun t => ADFNode.mk (str "paragraph") [textNode t] [] [] [])) []
        = (((t ++ []) ++ str "\n\n") ++
            renderNodes (rest.map (fun t => ADFNode.mk (str "paragraph") [textNode t] [] [] [])) []) :=
      rfl
    have enl : str "\n\n" = ['\n', '\n'] := rfl
    simp only [List.map_cons, List.foldr_cons, hstep, ih, enl, List.append_nil,
      List.append_assoc, List.cons_append, List.nil_append]

theorem splitNl_cons_nl (X : Str) : splitNl ('\n' :: X) = [] :: splitNl X := by
  simp [splitNl, splitChar]

theorem splitNl_plainParas (ts : List Str)
    (h : ∀ t ∈ ts, t ≠ [] ∧ ∀ c ∈ t, isPlainCh c = true) :
    splitNl (ts.foldr (fun t acc => t ++ '\n' :: '\n' :: acc) [])
      = (ts.map (fun t => [t, ([] : Str)])).flatten ++ [([] : Str)] := by
  induction ts with
  | nil => rfl
  | cons t rest ih =>
    have hnl : '\n' ∉ t := plain_mem t (h t (List.mem_cons_self t rest)).2 '\n' (by decide)
    simp only [List.foldr_cons, List.map_cons, List.flatten_cons]
    rw [splitNl_append _ _ hnl, splitNl_cons_nl,
      ih (fun x hx => h x (List.mem_cons_of_mem _ hx))]
    simp

/-- The fold step of `parseInline`'s selection loop, named for reasoning. -/
def selStep (s : Str) (acc : Nat × Option (InlinePat × Nat × (Str × Str) × Nat))
    (p : InlinePat) : Nat × Option (InlinePat × Nat × (Str × Str) × Nat) :=
  match scanPat (matcherOf p) s with
  | some (idx, g, l) => if idx < acc.1 then (idx, some (p, idx, g, l)) else acc
  | none => acc

theorem selPats_eq_fold (s : Str) :
    selPats s = (inlinePats.foldl (selStep s) (s.length, none)).2 := rfl

/-- Characterization of the selection fold: either no pattern improves on
the incoming bound, or the result is the last pattern to strictly improve —
every pattern before it in the list matches strictly later (or not at
all), every pattern after it matches no earlier. -/
theorem selFold_char (s : Str) :
    ∀ (ps : List InlinePat) (bi : Nat)
      (bo : Option (InlinePat × Nat × (Str × Str) × Nat)),
      (ps.foldl (selStep s) (bi, bo) = (bi, bo) ∧
        ∀ q ∈ ps, ∀ j g l, scanPat (matcherOf q) s = some (j, g, l) → bi ≤ j)
      ∨ (∃ ps1 p ps2 i g l, ps = ps1 ++ p :: ps2 ∧
          scanPat (matcherOf p) s = some (i, g, l) ∧ i < bi ∧
          ps.foldl (selStep s) (bi, bo) = (i, some (p, i, g, l)) ∧
          (∀ q ∈ ps1, ∀ j gq lq, scanPat (matcherOf q) s = some (j, gq, lq) → i < j) ∧
          (∀ q ∈ ps2, ∀ j gq lq, scanPat (matcherOf q) s = some (j, gq, lq) → i ≤ j)) := by
  intro ps
  induction ps with
  | nil =>
    intro bi bo
    exact Or.inl ⟨rfl, by simp⟩
  | cons q ps' ih =>
    intro bi bo
    rcases hq : scanPat (matcherOf q) s with _ | ⟨j, gq, lq⟩
    · have hid : selStep s (bi, bo) q = (bi, bo) := by simp [selStep, hq]
      rcases ih bi bo with ⟨heq, hall⟩ | ⟨ps1, p, ps2, i, g, l, hsplit, hscan, hlt, heq, h1, h2⟩
      · refine Or.inl ⟨?_, ?_⟩
        · simp only [List.foldl_cons, hid, heq]
        · intro x hx jv gv lv hs
          rcases List.mem_cons.mp hx with rfl | hx2
          · rw [hq] at hs; exact Option.noConfusion hs
          · exact hall x hx2 jv gv lv hs
      · refine Or.inr ⟨q :: ps1, p, ps2, i, g, l, by rw [hsplit]; rfl, hscan, hlt, ?_, ?_, h2⟩
        · simp only [List.foldl_cons, hid, heq]
        · intro x hx jv gv lv hs
          rcases List.mem_cons.mp hx with rfl | hx2
          · rw [hq] at hs; exact Option.noConfusion hs
          · exact h1 x hx2 jv gv lv hs
    · by_cases hij : j < bi
      · have hstep : selStep s (bi, bo) q = (j, some (q, j, gq, lq)) := by
          simp [selStep, hq, hij]
        rcases ih j (some (q, j, gq, lq)) with ⟨heq, hall⟩ |
          ⟨ps1, p, ps2, i, g, l, hsplit, hscan, hlt, heq, h1, h2⟩
        · refine Or.inr ⟨[], q, ps', j, gq, lq, rfl, hq, hij, ?_, by simp, ?_⟩
          · simp only [List.foldl_cons, hstep, heq]
          · exact hall
        · refine Or.inr ⟨q :: ps1, p, ps2, i, g, l, by rw [hsplit]; rfl, hscan,
            lt_trans hlt hij, ?_, ?_, h2⟩
          · simp only [List.foldl_cons, hstep, heq]
          · intro x hx jv gv lv hs
            rcases List.mem_cons.mp hx with rfl | hx2
            · rw [hq] at hs
              simp only [Option.some.injEq, Prod.mk.injEq] at hs
              omega
            · exact h1 x hx2 jv gv lv hs
      · have hstep : selStep s (bi, bo) q = (bi, bo) := by simp [selStep, hq, hij]
        rcases ih bi bo with ⟨heq, hall⟩ |
          ⟨ps1, p, ps2, i, g, l, hsplit, hscan, hlt, heq, h1, h2⟩
        · refine Or.inl ⟨?_, ?_⟩
          · simp only [List.foldl_cons, hstep, heq]
          · intro x hx jv gv lv hs
            rcases List.mem_cons.mp hx with rfl | hx2
            · rw [hq] at hs
              simp only [Option.some.injEq, Prod.mk.injEq] at hs
              omega
            · exact hall x hx2 jv gv lv hs
        · refine Or.inr ⟨q :: ps1, p, ps2, i, g, l, by rw [hsplit]; rfl, hscan, hlt, ?_, ?_, h2⟩
          · simp only [List.foldl_cons, hstep, heq]
          · intro x hx jv gv lv hs
            rcases List.mem_cons.mp hx with rfl | hx2
            · rw [hq] at hs
              simp only [Option.some.injEq, Prod.mk.injEq] at hs
              omega
            · exact h1 x hx2 jv gv lv hs

theorem stripBoldF_fix : ∀ (fuel : Nat) (t : Str), t.length ≤ fuel →
    (hasPfx (str "**") (stripBoldF fuel t) &&
      (hasSfx (str "**") (stripBoldF fuel t) &&
        decide (4 < (stripBoldF fuel t).length))) = false := by
  intro fuel
  induction fuel with
  | zero =>
    intro t ht
    have he : t = [] := List.eq_nil_of_length_eq_zero (Nat.le_zero.mp ht)
    subst he
    decide
  | succ f ih =>
    intro t ht
    simp only [stripBoldF]
    split_ifs with hcond
    · apply ih
      have h4 : 4 < t.length := hcond.2.2
      simp only [List.length_take, List.length_drop]
      omega
    · cases hp : hasPfx (str "**") t with
      | false => simp [hp]
      | true =>
        cases hs : hasSfx (str "**") t with
        | false => simp [hp, hs]
        | true =>
          have h4 : ¬(4 < t.length) := fun hl => hcond ⟨hp, hs, hl⟩
          simp [hp, hs, h4]

theorem findSub_append_cons (n0 : Char) (ns fm tail : Str)
    (h : ∀ c ∈ fm, ¬ c = n0) (ht : ((n0 :: ns).isPrefixOf tail) = true) :
    findSub (n0 :: ns) (fm ++ tail) = some fm.length := by
  induction fm with
  | nil =>
    cases tail with
    | nil => simp [List.isPrefixOf] at ht
    | cons a as => simp [findSub, ht]
  | cons c fm2 ih =>
    have hne : ¬ (n0 = c) := fun e => h c (List.mem_cons_self c fm2) e.symm
    have hpf : ((n0 :: ns).isPrefixOf (c :: (fm2 ++ tail))) = false :=
      charPfx_cons_neq n0 c ns _ hne
    simp only [List.cons_append, findSub, List.append_eq, hpf, Bool.false_eq_true, if_false,
      ih (fun x hx => h x (List.mem_cons_of_mem _ hx)), Option.map_some, List.length_cons]
    rfl

theorem parseInlineLoopF_noUnd : ∀ (fuel : Nat) (rem : Str),
    ((parseInlineLoopF fuel rem).all
      (fun n => n.marksOf.all (fun mk => decide (¬ mk.type = str "underline")))) = true := by
  intro fuel
  induction fuel with
  | zero => intro rem; rfl
  | succ f ih =>
    intro rem
    simp only [parseInlineLoopF]
    by_cases hrem : rem = []
    · rw [if_pos hrem]; rfl
    rw [if_neg hrem]
    rcases hsel : selPats rem with _ | ⟨p, i, g, l⟩
    · simp [textNode, ADFNode.marksOf]
    · simp only [List.all_append, List.all_cons, ih, Bool.and_true]
      obtain ⟨t, u⟩ := g
      have hnode : ((nodeOfMatch p (t, u)).marksOf.all
          (fun mk => decide (¬ mk.type = str "underline"))) = true := by
        cases p <;> simp [nodeOfMatch, markedNode, ADFNode.marksOf, str]
      rw [hnode]
      split
      · simp [textNode, ADFNode.marksOf]
      · rfl

/-! ## The claims -/

/-- C1 (amended): dispatch is by node tag; every tag in the renderer's
explicit preserved-tag case list is delegated to the Preservation Marker
Codec (the three-line marker block).  The claim's universal form is false:
a tag absent from BOTH the supported set and the preserved list falls into
the default branch, which renders only the children — the node itself is
lossily dropped (see the counterexample). -/
theorem c1_preserved_delegation (t : Str) (c : List ADFNode) (x : Str)
    (a : List (Str × JVal)) (m : List ADFMark) (pfx : Str)
    (h : t ∈ preservedTags) :
    renderNode (ADFNode.mk t c x a m) pfx = writePreservedMarker (ADFNode.mk t c x a m) := by
  simp only [preservedTags, List.mem_cons, List.not_mem_nil, or_false] at h
  rcases h with rfl|rfl|rfl|rfl|rfl|rfl|rfl|rfl|rfl|rfl|rfl|rfl|rfl|rfl|rfl|rfl|rfl|rfl|rfl
  all_goals rfl

/-- Witness for C1 at the `panel` tag. -/
theorem c1_witness :
    (str "panel" ∈ preservedTags) ∧
    renderNode (ADFNode.mk (str "panel") [] [] [] []) []
      = writePreservedMarker (ADFNode.mk (str "panel") [] [] [] []) :=
  ⟨by decide, c1_preserved_delegation _ _ _ _ _ _ (by decide)⟩

/-- C1 counterexample: a node with the unknown tag `customTag` is not
routed to the codec; only its child text survives, so the node is lossily
dropped. -/
theorem c1_counterexample :
    renderADF (ADFNode.mk (str "customTag") [textNode (str "hi")] [] [] []) = str "hi" ∧
    renderADF (ADFNode.mk (str "customTag") [textNode (str "hi")] [] [] [])
      ≠ writePreservedMarker (ADFNode.mk (str "customTag") [textNode (str "hi")] [] [] []) :=
  ⟨rfl, by decide⟩

/-- Witness for C2 at a concrete `status` node. -/
theorem c2_witness :
    ('\n' ∉ (ADFNode.mk (str "status") [] [] [] []).ty) ∧
    parsePreservedMarker
        (splitNl (writePreservedMarker (ADFNode.mk (str "status") [] [] [] []))) 0
      = (some (ADFNode.mk (str "status") [] [] [] []), 3) :=
  ⟨by decide, marker_decode_encode _ (by decide)⟩

/-- C2 counterexample: a node whose `Type` contains a newline serializes
fine, but its marker block decodes to nothing (the decoder gives up at the
shifted data line), not to the original node. -/
theorem c2_counterexample :
    parsePreservedMarker
        (splitNl (writePreservedMarker (ADFNode.mk (str "x\ny") [] [] [] []))) 0
      = (none, 1) ∧
    (none : Option ADFNode) ≠ some (ADFNode.mk (str "x\ny") [] [] [] []) :=
  ⟨rfl, by simp⟩

/-- C3 (amended): render-then-parse is the identity on documents of
plain-text paragraphs (nonempty, lower-case-letter texts).  The claim's
universal form over all supported-tag trees is false: inline markup
characters inside a text node are re-interpreted as formatting on the way
back (see the counterexample). -/
theorem c3_plain_roundtrip (ts : List Str)
    (h : ∀ t ∈ ts, t ≠ [] ∧ ∀ c ∈ t, isPlainCh c = true) :
    markdownToADF (2 * ts.length + 2)
        (renderADF (ADFNode.mk (str "doc")
          (ts.map (fun t => ADFNode.mk (str "paragraph") [textNode t] [] [] []))
          [] [(str "version", JVal.num 1)] []))
      = some (ADFNode.mk (str "doc")
          (ts.map (fun t => ADFNode.mk (str "paragraph") [textNode t] [] [] []))
          [] [(str "version", JVal.num 1)] []) := by
  have hrender : renderADF (ADFNode.mk (str "doc")
      (ts.map (fun t => ADFNode.mk (str "paragraph") [textNode t] [] [] []))
      [] [(str "version", JVal.num 1)] [])
      = ts.foldr (fun t acc => t ++ '\n' :: '\n' :: acc) [] := by
    have hd : renderADF (ADFNode.mk (str "doc")
        (ts.map (fun t => ADFNode.mk (str "paragraph") [textNode t] [] [] []))
        [] [(str "version", JVal.num 1)] [])
        = renderNodes (ts.map (fun t => ADFNode.mk (str "paragraph") [textNode t] [] [] [])) [] := rfl
    rw [hd, renderNodes_plainParas]
  simp only [markdownToADF, hrender, splitNl_plainParas ts h]
  have hb := blockLoop_plainParas ts [] (2 * ts.length + 2) h (le_refl _)
  simp only [List.nil_append, List.length_nil] at hb
  rw [hb]
  rfl

/-- Witness for C3 on a two-paragraph document. -/
theorem c3_witness :
    (∀ t ∈ [str "hello", str "world"], t ≠ [] ∧ ∀ c ∈ t, isPlainCh c = true) ∧
    markdownToADF 6
        (renderADF (ADFNode.mk (str "doc")
          [ADFNode.mk (str "paragraph") [textNode (str "hello")] [] [] [],
           ADFNode.mk (str "paragraph") [textNode (str "world")] [] [] []]
          [] [(str "version", JVal.num 1)] []))
      = some (ADFNode.mk (str "doc")
          [ADFNode.mk (str "paragraph") [textNode (str "hello")] [] [] [],
           ADFNode.mk (str "paragraph") [textNode (str "world")] [] [] []]
          [] [(str "version", JVal.num 1)] []) :=
  ⟨by decide, c3_plain_roundtrip [str "hello", str "world"] (by decide)⟩

/-- C3 counterexample: a paragraph whose text is the literal string
`**x**` renders to `**x**\n\n`, which parses back as a bold-marked `x` —
a structural difference, not a whitespace-only one. -/
theorem c3_counterexample :
    markdownToADF 4
        (renderADF (ADFNode.mk (str "doc")
          [ADFNode.mk (str "paragraph") [textNode (str "**x**")] [] [] []]
          [] [(str "version", JVal.num 1)] []))
      = some (ADFNode.mk (str "doc")
          [ADFNode.mk (str "paragraph") [markedNode (str "x") ⟨str "strong", []⟩] [] [] []]
          [] [(str "version", JVal.num 1)] []) ∧
    (ADFNode.mk (str "doc")
          [ADFNode.mk (str "paragraph") [markedNode (str "x") ⟨str "strong", []⟩] [] [] []]
          [] [(str "version", JVal.num 1)] [])
      ≠ (ADFNode.mk (str "doc")
          [ADFNode.mk (str "paragraph") [textNode (str "**x**")] [] [] []]
          [] [(str "version", JVal.num 1)] []) := by
  refine ⟨rfl, fun h => ?_⟩
  have hc := congrArg
    (fun d => ((d.kids.getD 0 (textNode [])).kids.getD 0 (textNode [])).txt) h
  revert hc
  decide

/-- C4 (code bug): the block loop of `markdownToADF` does not terminate on
every input.  Two witnesses: a lone `"| a"` line (the table branch needs
two pipe lines, falls through, and the paragraph loop breaks immediately
on the `|` prefix without consuming anything), and a bare marker-open line
(the failed marker parse falls through and the paragraph loop breaks on
the marker prefix) — in both cases the loop repeats with unchanged state,
so the fuelled model returns `none` for every fuel. -/
theorem c4_livelock :
    (∀ fuel : Nat, markdownToADF fuel (str "| a") = none) ∧
    (∀ fuel : Nat, markdownToADF fuel (str "<!-- PRESERVED: x -->") = none) := by
  constructor
  · have hstep : ∀ f : Nat, blockLoopF (f + 1) (splitNl (str "| a")) 0
        = blockLoopF f (splitNl (str "| a")) 0 := fun f => rfl
    have hall : ∀ fuel : Nat, blockLoopF fuel (splitNl (str "| a")) 0 = none := by
      intro fuel
      induction fuel with
      | zero => rfl
      | succ f ih => exact (hstep f).trans ih
    intro fuel
    simp [markdownToADF, hall fuel]
  · have hstep : ∀ f : Nat, blockLoopF (f + 1) (splitNl (str "<!-- PRESERVED: x -->")) 0
        = blockLoopF f (splitNl (str "<!-- PRESERVED: x -->")) 0 := fun f => rfl
    have hall : ∀ fuel : Nat, blockLoopF fuel (splitNl (str "<!-- PRESERVED: x -->")) 0 = none := by
      intro fuel
      induction fuel with
      | zero => rfl
      | succ f ih => exact (hstep f).trans ih
    intro fuel
    simp [markdownToADF, hall fuel]

/-- C5: inline parsing repeatedly selects the leftmost match among the
five patterns, the listed order (link, bold, strike, code, italic) acting
only as a tie-break (patterns earlier in the list match strictly later
than the winner, patterns later match no earlier); text before the match
becomes a plain text node, the match becomes a marked text node, and
scanning continues on the remainder. -/
theorem c5_leftmost_selection :
    (∀ (s : Str) (p : InlinePat) (i : Nat) (g : Str × Str) (l : Nat),
      selPats s = some (p, i, g, l) →
      scanPat (matcherOf p) s = some (i, g, l) ∧
      ∃ ps1 ps2, inlinePats = ps1 ++ p :: ps2 ∧
        (∀ q ∈ ps1, ∀ j gq lq, scanPat (matcherOf q) s = some (j, gq, lq) → i < j) ∧
        (∀ q ∈ ps2, ∀ j gq lq, scanPat (matcherOf q) s = some (j, gq, lq) → i ≤ j)) ∧
    (∀ (rem : Str) (fuel : Nat) (p : InlinePat) (i : Nat) (g : Str × Str) (l : Nat),
      ¬ rem = [] → selPats rem = some (p, i, g, l) →
      parseInlineLoopF (fuel + 1) rem
        = (if 0 < i then [textNode (rem.take i)] else []) ++
          nodeOfMatch p g :: parseInlineLoopF fuel (rem.drop (i + l))) := by
  constructor
  · intro s p i g l hsel
    rw [selPats_eq_fold] at hsel
    rcases selFold_char s inlinePats s.length none with ⟨heq, _⟩ |
      ⟨ps1, p2, ps2, i2, g2, l2, hsplit, hscan, _, heq, h1, h2⟩
    · rw [heq] at hsel
      exact Option.noConfusion hsel
    · rw [heq] at hsel
      change some (p2, i2, g2, l2) = some (p, i, g, l) at hsel
      simp only [Option.some.injEq, Prod.mk.injEq] at hsel
      obtain ⟨rfl, rfl, rfl, rfl⟩ := hsel
      exact ⟨hscan, ps1, ps2, hsplit, h1, h2⟩
  · intro rem fuel p i g l hne hsel
    simp only [parseInlineLoopF, if_neg hne, hsel]

/-- Witness for C5 on the input `*a*` (italic wins at offset 0). -/
theorem c5_witness :
    (selPats (str "*a*") = some (.pitalic, 0, (str "a", ([] : Str)), 3) ∧
      (scanPat (matcherOf .pitalic) (str "*a*") = some (0, (str "a", ([] : Str)), 3) ∧
        ∃ ps1 ps2, inlinePats = ps1 ++ .pitalic :: ps2 ∧
          (∀ q ∈ ps1, ∀ j gq lq,
            scanPat (matcherOf q) (str "*a*") = some (j, gq, lq) → 0 < j) ∧
          (∀ q ∈ ps2, ∀ j gq lq,
            scanPat (matcherOf q) (str "*a*") = some (j, gq, lq) → 0 ≤ j))) ∧
    ((¬ str "*a*" = ([] : Str)) ∧
      parseInlineLoopF (0 + 1) (str "*a*")
        = (if 0 < 0 then [textNode ((str "*a*").take 0)] else []) ++
          nodeOfMatch .pitalic (str "a", ([] : Str)) ::
            parseInlineLoopF 0 ((str "*a*").drop (0 + 3))) :=
  ⟨⟨rfl, c5_leftmost_selection.1 (str "*a*") .pitalic 0 (str "a", []) 3 rfl⟩,
   ⟨by decide, c5_leftmost_selection.2 (str "*a*") 0 .pitalic 0 (str "a", []) 3 (by decide) rfl⟩⟩

/-- The concrete three-line table of C6. -/
def c6In : Str := str "| A | B |\n| --- | --- |\n| 1 | 2 |"

/-- The document that the C6 table parses to. -/
def c6Doc : ADFNode :=
  .mk (str "doc")
    [.mk (str "table")
      [.mk (str "tableRow")
        [.mk (str "tableHeader") [.mk (str "paragraph") [textNode (str "A")] [] [] []] [] [] [],
         .mk (str "tableHeader") [.mk (str "paragraph") [textNode (str "B")] [] [] []] [] [] []]
        [] [] [],
       .mk (str "tableRow")
        [.mk (str "tableCell") [.mk (str "paragraph") [textNode (str "1")] [] [] []] [] [] [],
         .mk (str "tableCell") [.mk (str "paragraph") [textNode (str "2")] [] [] []] [] [] []]
        [] [] []]
      []
      [(str "isNumberColumnEnabled", JVal.vbool false), (str "layout", JVal.vstr (str "default"))]
      []]
    [] [(str "version", JVal.num 1)] []

/-- C6 (amended): when at least two pipe-led lines are collected, the first
row is tagged as a header row iff stripping `:` and `-` from every cell of
the second line leaves all cells empty (data rows then start at line 3,
otherwise all lines are data rows); the concrete table parses to one
header row (A, B) and one data row (1, 2).  The claim's byte-identity of
the re-render is false — re-rendering appends a trailing blank line (see
the counterexample) — so the amended statement records the exact output
`c6In ++ "\n\n"`. -/
theorem c6_table_header :
    (∀ (lines : List Str) (i : Nat) (l0 l1 : Str) (rest : List Str),
      ((lines.drop i).takeWhile (fun l => hasPfx (str "|") (trimSpace l))).map trimSpace
        = l0 :: l1 :: rest →
      parseMarkdownTable lines i
        = (some (ADFNode.mk (str "table")
            (if (splitTableRow l1).all (fun cell => trimChars (str ":-") (trimSpace cell) = [])
             then buildTableRow (splitTableRow l0) true ::
                    rest.map (fun l => buildTableRow (splitTableRow l) false)
             else (l0 :: l1 :: rest).map (fun l => buildTableRow (splitTableRow l) false))
            [] [(str "isNumberColumnEnabled", JVal.vbool false),
                (str "layout", JVal.vstr (str "default"))] []),
           i + (l0 :: l1 :: rest).length)) ∧
    markdownToADF 4 c6In = some c6Doc ∧
    renderADF c6Doc = c6In ++ str "\n\n" := by
  refine ⟨?_, rfl, rfl⟩
  intro lines i l0 l1 rest hcollect
  simp only [parseMarkdownTable, hcollect]

/-- Witness for C6's separator clause at the concrete table lines. -/
theorem c6_witness :
    (((splitNl c6In).drop 0).takeWhile (fun l => hasPfx (str "|") (trimSpace l))).map trimSpace
      = [str "| A | B |", str "| --- | --- |", str "| 1 | 2 |"] ∧
    parseMarkdownTable (splitNl c6In) 0
      = (some (ADFNode.mk (str "table")
          (if (splitTableRow (str "| --- | --- |")).all
              (fun cell => trimChars (str ":-") (trimSpace cell) = [])
           then buildTableRow (splitTableRow (str "| A | B |")) true ::
                  [str "| 1 | 2 |"].map (fun l => buildTableRow (splitTableRow l) false)
           else [str "| A | B |", str "| --- | --- |", str "| 1 | 2 |"].map
                  (fun l => buildTableRow (splitTableRow l) false))
          [] [(str "isNumberColumnEnabled", JVal.vbool false),
              (str "layout", JVal.vstr (str "default"))] []),
         0 + ([str "| A | B |", str "| --- | --- |", str "| 1 | 2 |"] : List Str).length) :=
  ⟨rfl, c6_table_header.1 (splitNl c6In) 0 (str "| A | B |") (str "| --- | --- |")
    [str "| 1 | 2 |"] rfl⟩

/-- C6 counterexample: re-rendering the parsed table is not byte-identical
to the input — two newlines are appended. -/
theorem c6_counterexample :
    markdownToADF 4 c6In = some c6Doc ∧ renderADF c6Doc ≠ c6In :=
  ⟨rfl, by decide⟩

/-- The depth-3 bullet document of C7 (list nested inside a nested list). -/
def c7DeepDoc : ADFNode :=
  .mk (str "doc")
    [.mk (str "bulletList")
      [.mk (str "listItem")
        [.mk (str "paragraph") [textNode (str "a")] [] [] [],
         .mk (str "bulletList")
          [.mk (str "listItem")
            [.mk (str "paragraph") [textNode (str "b")] [] [] [],
             .mk (str "bulletList")
              [.mk (str "listItem")
                [.mk (str "paragraph") [textNode (str "c")] [] [] []] [] [] []]
              [] [] []]
            [] [] []]
          [] [] []]
        [] [] []]
      [] [] []]
    [] [(str "version", JVal.num 1)] []

/-- What C7's depth-3 markdown actually parses to: `b` and `c` become
siblings in a single depth-2 sub-list. -/
def c7FlatDoc : ADFNode :=
  .mk (str "doc")
    [.mk (str "bulletList")
      [.mk (str "listItem")
        [.mk (str "paragraph") [textNode (str "a")] [] [] [],
         .mk (str "bulletList")
          [.mk (str "listItem") [.mk (str "paragraph") [textNode (str "b")] [] [] []] [] [] [],
           .mk (str "listItem") [.mk (str "paragraph") [textNode (str "c")] [] [] []] [] [] []]
          [] [] []]
        [] [] []]
      [] [] []]
    [] [(str "version", JVal.num 1)] []

/-- C7 (amended): one level of nesting is reconstructed — indented
list-item lines become a single nested sub-list on the preceding item,
stripped of leading indentation.  Beyond one level the claim is false:
`TrimLeft` removes ALL leading whitespace and the indented-sub-item test
only distinguishes "indented" from "not indented", so a depth-3 input
renders correctly but parses back with the depth-3 item flattened into the
depth-2 sub-list (see the counterexample). -/
theorem c7_list_nesting :
    markdownToADF 4 (str "- a\n  - b")
      = some (ADFNode.mk (str "doc")
          [ADFNode.mk (str "bulletList")
            [ADFNode.mk (str "listItem")
              [ADFNode.mk (str "paragraph") [textNode (str "a")] [] [] [],
               ADFNode.mk (str "bulletList")
                [ADFNode.mk (str "listItem")
                  [ADFNode.mk (str "paragraph") [textNode (str "b")] [] [] []] [] [] []]
                [] [] []]
              [] [] []]
            [] [] []]
          [] [(str "version", JVal.num 1)] []) ∧
    renderADF c7DeepDoc = str "- a\n  - b\n    - c\n" ∧
    markdownToADF 4 (renderADF c7DeepDoc) = some c7FlatDoc :=
  ⟨rfl, rfl, rfl⟩

/-- C7 counterexample: the parse of the rendered depth-3 document is not
the original document — the innermost list level is gone. -/
theorem c7_counterexample :
    markdownToADF 4 (renderADF c7DeepDoc) = some c7FlatDoc ∧ c7FlatDoc ≠ c7DeepDoc := by
  refine ⟨rfl, fun h => ?_⟩
  have hc := congrArg (fun d =>
    (((d.kids.getD 0 (textNode [])).kids.getD 0 (textNode [])).kids.getD 1
      (textNode [])).kids.length) h
  revert hc
  decide

/-- C8 (amended): header-cell text is stripped of surrounding bold markers
repeatedly, until none remain (the Go `for` loop runs to a fixpoint), not
once; on a singly-wrapped cell this coincides with stripping once, and a
tableHeader cell's bold is fully removed.  See the counterexample for an
input where "once" and "to exhaustion" differ. -/
theorem c8_header_strip :
    (∀ t : Str, (hasPfx (str "**") (stripBold t) &&
        (hasSfx (str "**") (stripBold t) && decide (4 < (stripBold t).length))) = false) ∧
    stripBold (str "**x**") = str "x" ∧
    rowCells [ADFNode.mk (str "tableHeader")
        [ADFNode.mk (str "paragraph") [textNode (str "****x****")] [] [] []] [] [] []]
      = [str "x"] := by
  refine ⟨?_, rfl, rfl⟩
  intro t
  exact stripBoldF_fix t.length t (le_refl _)

/-- Spec-side definition, from the claim's words: strip surrounding bold
markers ONCE before printing. -/
def specStripBoldOnce (t : Str) : Str :=
  if hasPfx (str "**") t ∧ hasSfx (str "**") t ∧ t.length > 4 then
    (t.drop 2).take (t.length - 4)
  else t

/-- C8 counterexample: on a doubly-wrapped header text the code's repeated
strip and the spec's single strip disagree. -/
theorem c8_counterexample :
    stripBold (str "****x****") = str "x" ∧
    specStripBoldOnce (str "****x****") = str "**x**" ∧
    stripBold (str "****x****") ≠ specStripBoldOnce (str "****x****") :=
  ⟨rfl, rfl, by decide⟩

/-- C9 (amended): for a single-line, nonempty metadata block (no carriage
returns or newlines) the Frontmatter Splitter succeeds on
`"---\n" ++ fm ++ "\n---\n" ++ body` (already whitespace-trimmed) and
returns the metadata verbatim and the body stripped of leading newlines.
The claim's iff is false in both directions: the splitter only checks a
`---` character *prefix* (so `---xx` delimiter lines are accepted), and it
searches for `"\n---"` only after stripping the newlines that follow the
opening `---`, so a closing delimiter on the immediately following line is
missed (see the counterexample). -/
theorem c9_frontmatter (fm body : Str) (hne : fm ≠ [])
    (hnl : ∀ c ∈ fm, ¬ c = '\n' ∧ ¬ c = '\r')
    (htr : trimSpace (str "---\n" ++ fm ++ str "\n---\n" ++ body)
            = str "---\n" ++ fm ++ str "\n---\n" ++ body) :
    splitFrontmatter (str "---\n" ++ fm ++ str "\n---\n" ++ body)
      = some (fm, trimLeftChars (str "\n\r") body) := by
  obtain ⟨c0, fm2, rfl⟩ : ∃ c0 fm2, fm = c0 :: fm2 := by
    cases fm with
    | nil => exact absurd rfl hne
    | cons a b => exact ⟨a, b, rfl⟩
  have hpfx : hasPfx (str "---") (str "---\n" ++ (c0 :: fm2) ++ str "\n---\n" ++ body) = true := rfl
  have hdrop3 : (str "---\n" ++ (c0 :: fm2) ++ str "\n---\n" ++ body).drop 3
      = '\n' :: (((c0 :: fm2) ++ str "\n---\n") ++ body) := rfl
  have hc0 : decide (c0 ∈ str "\n\r") = false := by
    have := hnl c0 (List.mem_cons_self c0 fm2)
    apply decide_eq_false
    intro hm
    have e : str "\n\r" = ['\n', '\r'] := rfl
    rw [e] at hm
    simp only [List.mem_cons, List.not_mem_nil, or_false] at hm
    rcases hm with e1 | e1
    · exact this.1 e1
    · exact this.2 e1
  have htl : trimLeftChars (str "\n\r") ('\n' :: (((c0 :: fm2) ++ str "\n---\n") ++ body))
      = ((c0 :: fm2) ++ str "\n---\n") ++ body := by
    simp only [trimLeftChars, List.dropWhile]
    rw [show decide ('\n' ∈ str "\n\r") = true from rfl, hc0]
    rfl
  have hfs : findSub (str "\n---") ((c0 :: fm2) ++ (str "\n---\n" ++ body))
      = some (c0 :: fm2).length :=
    findSub_append_cons '\n' (str "---") (c0 :: fm2) (str "\n---\n" ++ body)
      (fun c hc => (hnl c hc).1) rfl
  have hfs2 : findSub (str "\n---") (((c0 :: fm2) ++ str "\n---\n") ++ body)
      = some (c0 :: fm2).length := by
    rw [List.append_assoc]
    exact hfs
  have htake : (((c0 :: fm2) ++ str "\n---\n") ++ body).take (c0 :: fm2).length
      = c0 :: fm2 := by
    rw [List.append_assoc]
    exact List.take_left _ _
  have hdrop4 : (((c0 :: fm2) ++ str "\n---\n") ++ body).drop ((c0 :: fm2).length + 4)
      = '\n' :: body := by
    rw [List.append_assoc, ← List.drop_drop]
    rw [List.drop_left]
    rfl
  have htl2 : trimLeftChars (str "\n\r") ('\n' :: body)
      = trimLeftChars (str "\n\r") body := by
    simp only [trimLeftChars, List.dropWhile]
    rw [show decide ('\n' ∈ str "\n\r") = true from rfl]
  simp only [splitFrontmatter, htr, hpfx, hdrop3, htl, hfs2, htake, hdrop4, htl2,
    not_true, Bool.true_eq_false, if_false]

/-- Witness for C9 on a concrete metadata line and body. -/
theorem c9_witness :
    ((str "key: v" ≠ ([] : Str)) ∧
      (∀ c ∈ str "key: v", ¬ c = '\n' ∧ ¬ c = '\r') ∧
      trimSpace (str "---\n" ++ str "key: v" ++ str "\n---\n" ++ str "body.")
        = str "---\n" ++ str "key: v" ++ str "\n---\n" ++ str "body.") ∧
    splitFrontmatter (str "---\n" ++ str "key: v" ++ str "\n---\n" ++ str "body.")
      = some (str "key: v", trimLeftChars (str "\n\r") (str "body.")) :=
  ⟨⟨by decide, by decide, by decide⟩,
   c9_frontmatter (str "key: v") (str "body.") (by decide) (by decide) (by decide)⟩

/-- C9 counterexample, refuting the iff in both directions: delimiter
lines that are NOT exactly `---` are accepted (and the returned block is
not the text between `---` delimiters), while a closing `---` on the line
immediately after the opening one is missed and the splitter fails. -/
theorem c9_counterexample :
    splitFrontmatter (str "---xx\nkey: v\n---yy\nbody")
      = some (str "xx\nkey: v", str "yy\nbody") ∧
    splitFrontmatter (str "---\n---\nbody") = none :=
  ⟨rfl, rfl⟩

/-- C10: a text node carrying an underline mark renders with the text
wrapped in single underscores at the underline step (outer marks wrap
around that), and inline parsing never produces a node carrying an
underline mark — so underline marks cannot survive a render-parse
cycle. -/
theorem c10_underline :
    (∀ (x : Str) (a ua : List (Str × JVal)) (marks1 marks2 : List ADFMark) (pfx : Str),
      renderNode (ADFNode.mk (str "text") [] x a
          (marks1 ++ (⟨str "underline", ua⟩ : ADFMark) :: marks2)) pfx
        = applyMarks (str "_" ++ applyMarks x marks1 ++ str "_") marks2) ∧
    (∀ s : Str, ((parseInline s).all
        (fun n => n.marksOf.all (fun mk => decide (¬ mk.type = str "underline")))) = true) := by
  constructor
  · intro x a ua marks1 marks2 pfx
    have h1 : renderNode (ADFNode.mk (str "text") [] x a
        (marks1 ++ (⟨str "underline", ua⟩ : ADFMark) :: marks2)) pfx
        = applyMarks x (marks1 ++ (⟨str "underline", ua⟩ : ADFMark) :: marks2) := rfl
    rw [h1, applyMarks_append]
    rfl
  · intro s
    simp only [parseInline]
    by_cases hs : s = []
    · rw [if_pos hs]
      rfl
    rw [if_neg hs]
    cases he : (parseInlineLoopF (s.length + 1) s).isEmpty with
    | false =>
      simp only [he, Bool.false_eq_true, if_false]
      exact parseInlineLoopF_noUnd _ _
    | true =>
      simp only [he, if_true]
      rfl
